import Mathlib

/-!
Verification of the Kameeti committee-ledger engine.

The TypeScript source (`useCommitteeData` and the modal components) is
shallowly embedded below.  Strings stand for the opaque ids produced by
`uuidv4()`; the empty string `""` models an absent (JS-falsy) `pairId`
partner reference.  Calendar dates handled through `Date.UTC` are
modelled as civil (year, month, day) triples together with their day
number relative to the Unix epoch; month tokens `"YYYY-MM"` are modelled
as (year, month) pairs.
-/

namespace Kameeti

/-- Share type of a member, from `types.ts` (`ShareType.FULL` / `ShareType.HALF`). -/
inductive ShareType where
  | FULL
  | HALF
deriving DecidableEq, Repr

/-- A committee record.  `startDate` is kept as its raw string; no claim
depends on parsing it. -/
structure Committee where
  id : String
  name : String
  monthlyAmount : Int
  startDate : String
  durationMonths : Nat
  allowHalfShare : Bool
deriving DecidableEq, Repr

/-- A member record.  `pairId = ""` models a missing/empty pair reference. -/
structure Member where
  id : String
  committeeId : String
  name : String
  phone : String
  shareType : ShareType
  pairId : String
deriving DecidableEq, Repr

/-- A month token `"YYYY-MM"`, modelled as the pair (year, month). -/
structure MonthYear where
  year : Int
  month : Int
deriving DecidableEq, Repr

/-- A calendar date string `"YYYY-MM-DD"`, modelled as a civil triple. -/
structure CivilDate where
  year : Int
  month : Int
  day : Int
deriving DecidableEq, Repr

structure Payment where
  id : String
  committeeId : String
  memberIdOrPairId : String
  monthYear : MonthYear
  amount : Int
  datePaid : CivilDate
  lateDays : Int
  demeritPoints : Int
deriving DecidableEq, Repr

structure Draw where
  id : String
  committeeId : String
  monthYear : MonthYear
  winnerIdOrPairId : String
  payoutDate : CivilDate
  amount : Int
deriving DecidableEq, Repr

/-- The engine snapshot (`AppState` in `useCommitteeData`). -/
structure AppState where
  committees : List Committee
  members : List Member
  payments : List Payment
  draws : List Draw
deriving DecidableEq, Repr

/-- The empty snapshot (the `getInitialState` fallback). -/
def emptyState : AppState := ⟨[], [], [], []⟩

/-! ## Grouping by pairId

The source groups members into a `Record<string, Member[]>` with a
`reduce`; `insertGroup` models one step of that reduce (push onto the
existing group, else add a new group at the end), and `groupFold` the
whole reduce with a guard predicate `p` and key function `key`. -/

def insertGroup (acc : List (String × List Member)) (k : String) (m : Member) :
    List (String × List Member) :=
  if acc.any (fun g => g.1 = k) then
    acc.map (fun g => if g.1 = k then (g.1, g.2 ++ [m]) else g)
  else
    acc ++ [(k, [m])]

def groupStep (p : Member → Bool) (key : Member → String)
    (acc : List (String × List Member)) (m : Member) : List (String × List Member) :=
  if p m then insertGroup acc (key m) m else acc

def groupFold (p : Member → Bool) (key : Member → String) (l : List Member) :
    List (String × List Member) :=
  l.foldl (groupStep p key) []

theorem insertGroup_eq_pos (acc : List (String × List Member)) (k : String) (m : Member)
    (h : (acc.any fun g => decide (g.1 = k)) = true) :
    insertGroup acc k m = acc.map (fun g => if g.1 = k then (g.1, g.2 ++ [m]) else g) := by
  unfold insertGroup
  rw [if_pos h]

theorem insertGroup_eq_neg (acc : List (String × List Member)) (k : String) (m : Member)
    (h : ¬ (acc.any fun g => decide (g.1 = k)) = true) :
    insertGroup acc k m = acc ++ [(k, [m])] := by
  unfold insertGroup
  rw [if_neg h]

theorem map_fst_update (acc : List (String × List Member)) (k : String) (m : Member) :
    (acc.map (fun g => if g.1 = k then (g.1, g.2 ++ [m]) else g)).map Prod.fst
      = acc.map Prod.fst := by
  rw [List.map_map]
  apply List.map_congr_left
  intro g _
  by_cases hg : g.1 = k <;> simp [hg]

/-- Invariant tying an accumulator of `groupStep` to the prefix `pre`
already consumed. -/
def GroupInv (p : Member → Bool) (key : Member → String)
    (pre : List Member) (acc : List (String × List Member)) : Prop :=
  (acc.map Prod.fst).Nodup ∧
  (∀ g ∈ acc, g.2 = pre.filter (fun m => p m && decide (key m = g.1))) ∧
  (∀ k : String, k ∈ acc.map Prod.fst ↔ ∃ m ∈ pre, p m = true ∧ key m = k)

theorem groupInv_step (p : Member → Bool) (key : Member → String)
    (pre : List Member) (acc : List (String × List Member)) (m : Member)
    (h : GroupInv p key pre acc) :
    GroupInv p key (pre ++ [m]) (groupStep p key acc m) := by
  obtain ⟨hnd, hval, hkey⟩ := h
  by_cases hp : p m
  · rw [groupStep, if_pos hp]
    by_cases hany : (acc.any fun g => decide (g.1 = key m)) = true
    · rw [insertGroup_eq_pos acc (key m) m hany]
      have hkm : key m ∈ acc.map Prod.fst := by
        rw [List.any_eq_true] at hany
        obtain ⟨g, hg, hgk⟩ := hany
        rw [decide_eq_true_eq] at hgk
        rw [List.mem_map]
        exact ⟨g, hg, hgk⟩
      refine ⟨?_, ?_, ?_⟩
      · rw [map_fst_update]
        exact hnd
      · intro g' hg'
        rw [List.mem_map] at hg'
        obtain ⟨g, hg, rfl⟩ := hg'
        by_cases hgk : g.1 = key m
        · rw [if_pos hgk]
          rw [List.filter_append, hval g hg]
          simp [hp, hgk]
        · rw [if_neg hgk]
          rw [hval g hg, List.filter_append]
          have hne : ¬ (key m = g.1) := fun hh => hgk hh.symm
          simp [hp, hne]
      · intro k
        rw [map_fst_update, hkey]
        constructor
        · rintro ⟨m', hm', hpm', hkm'⟩
          exact ⟨m', List.mem_append_left _ hm', hpm', hkm'⟩
        · rintro ⟨m', hm', hpm', hkm'⟩
          rcases List.mem_append.mp hm' with hm' | hm'
          · exact ⟨m', hm', hpm', hkm'⟩
          · rw [List.mem_singleton] at hm'
            subst hm'
            exact (hkey k).mp (by rw [← hkm']; exact hkm)
    · rw [insertGroup_eq_neg acc (key m) m hany]
      have hnotin : key m ∉ acc.map Prod.fst := by
        intro hmem
        rw [List.mem_map] at hmem
        obtain ⟨g, hg, hgk⟩ := hmem
        exact hany (List.any_eq_true.mpr ⟨g, hg, decide_eq_true hgk⟩)
      refine ⟨?_, ?_, ?_⟩
      · rw [List.map_append]
        simp only [List.map_cons, List.map_nil]
        rw [List.nodup_append]
        refine ⟨hnd, List.nodup_singleton _, ?_⟩
        intro a ha hb
        rw [List.mem_singleton] at hb
        subst hb
        exact hnotin ha
      · intro g hg
        rcases List.mem_append.mp hg with hg | hg
        · rw [hval g hg, List.filter_append]
          have hne : ¬ (key m = g.1) := by
            intro hh
            apply hnotin
            rw [hh]
            exact List.mem_map_of_mem Prod.fst hg
          simp [hp, hne]
        · rw [List.mem_singleton] at hg
          subst hg
          rw [List.filter_append]
          have hpre : pre.filter (fun x => p x && decide (key x = key m)) = [] := by
            rw [List.filter_eq_nil_iff]
            intro a ha hcond
            rw [Bool.and_eq_true, decide_eq_true_eq] at hcond
            exact hnotin ((hkey (key m)).mpr ⟨a, ha, hcond.1, hcond.2⟩)
          rw [hpre]
          simp [hp]
      · intro k
        rw [List.map_append]
        simp only [List.map_cons, List.map_nil]
        rw [List.mem_append, List.mem_singleton, hkey]
        constructor
        · rintro (⟨m', hm', h1, h2⟩ | hk)
          · exact ⟨m', List.mem_append_left _ hm', h1, h2⟩
          · subst hk
            exact ⟨m, List.mem_append_right _ (List.mem_singleton_self m), hp, rfl⟩
        · rintro ⟨m', hm', h1, h2⟩
          rcases List.mem_append.mp hm' with hm' | hm'
          · exact Or.inl ⟨m', hm', h1, h2⟩
          · rw [List.mem_singleton] at hm'
            subst hm'
            exact Or.inr h2.symm
  · rw [groupStep, if_neg hp]
    refine ⟨hnd, ?_, ?_⟩
    · intro g hg
      rw [hval g hg, List.filter_append]
      simp [hp]
    · intro k
      rw [hkey]
      constructor
      · rintro ⟨m', hm', h1, h2⟩
        exact ⟨m', List.mem_append_left _ hm', h1, h2⟩
      · rintro ⟨m', hm', h1, h2⟩
        rcases List.mem_append.mp hm' with hm' | hm'
        · exact ⟨m', hm', h1, h2⟩
        · rw [List.mem_singleton] at hm'
          subst hm'
          exact absurd h1 hp

theorem groupInv_foldl (p : Member → Bool) (key : Member → String) :
    ∀ (l pre : List Member) (acc : List (String × List Member)),
      GroupInv p key pre acc →
      GroupInv p key (pre ++ l) (l.foldl (groupStep p key) acc) := by
  intro l
  induction l with
  | nil => intro pre acc h; simpa using h
  | cons m rest ih =>
      intro pre acc h
      have h1 := groupInv_step p key pre acc m h
      have h2 := ih (pre ++ [m]) _ h1
      simpa using h2

theorem groupFold_inv (p : Member → Bool) (key : Member → String) (l : List Member) :
    GroupInv p key l (groupFold p key l) := by
  have h0 : GroupInv p key [] [] := by
    refine ⟨List.nodup_nil, ?_, ?_⟩
    · intro g hg
      exact absurd hg (List.not_mem_nil g)
    · intro k
      constructor
      · intro hk
        exact absurd hk (List.not_mem_nil k)
      · rintro ⟨m, hm, -⟩
        exact absurd hm (List.not_mem_nil m)
  have := groupInv_foldl p key l [] [] h0
  simpa [groupFold] using this

/-! ## Duration derivation (`calculateDuration`) -/

/-- Direct embedding of `calculateDuration` from `useCommitteeData`. -/
def calculateDuration (committeeId : String) (members : List Member) : Nat :=
  let committeeMembers := members.filter (fun m => m.committeeId = committeeId)
  let fullShareCount := (committeeMembers.filter (fun m => m.shareType = ShareType.FULL)).length
  let halfShareMembers := committeeMembers.filter (fun m => m.shareType = ShareType.HALF)
  if halfShareMembers.length < 2 then
    fullShareCount
  else
    let membersByPairId := groupFold (fun m => !(m.pairId = "" : Bool)) (fun m => m.pairId)
      halfShareMembers
    let pairCount := (membersByPairId.filter (fun g => g.2.length = 2)).length
    fullShareCount + pairCount

/-- The spec's `deriveDuration`: F = number of FULL members of the
committee, P = number of pairId-groups of the committee's HALF members
whose size is exactly 2; result F + P. -/
def deriveDuration (committeeId : String) (members : List Member) : Nat :=
  let committeeMembers := members.filter (fun m => m.committeeId = committeeId)
  let F := (committeeMembers.filter (fun m => m.shareType = ShareType.FULL)).length
  let halves := committeeMembers.filter (fun m => m.shareType = ShareType.HALF)
  let P := ((halves.map (fun m => m.pairId)).dedup.filter
      (fun pid => (halves.filter (fun m => m.pairId = pid)).length = 2)).length
  F + P

theorem countP_eq_of_nodup_mem_iff {l1 l2 : List String} (q : String → Bool)
    (h1 : l1.Nodup) (h2 : l2.Nodup) (h : ∀ a, a ∈ l1 ↔ a ∈ l2) :
    l1.countP q = l2.countP q :=
  ((List.perm_ext_iff_of_nodup h1 h2).mpr h).countP_eq q

theorem groupFold_pairCount (halves : List Member) (hne : ∀ m ∈ halves, m.pairId ≠ "") :
    ((groupFold (fun m => !(m.pairId = "" : Bool)) (fun m => m.pairId) halves).filter
        (fun g => (g.2.length = 2 : Bool))).length
      = ((halves.map (fun m => m.pairId)).dedup.filter
        (fun pid => ((halves.filter (fun m => (m.pairId = pid : Bool))).length = 2 : Bool))).length := by
  obtain ⟨hnd, hval, hkey⟩ :=
    groupFold_inv (fun m => !(m.pairId = "" : Bool)) (fun m => m.pairId) halves
  rw [← List.countP_eq_length_filter, ← List.countP_eq_length_filter]
  have hstep1 : (groupFold (fun m => !(m.pairId = "" : Bool)) (fun m => m.pairId) halves).countP
        (fun g => (g.2.length = 2 : Bool))
      = (groupFold (fun m => !(m.pairId = "" : Bool)) (fun m => m.pairId) halves).countP
        (fun g => ((halves.filter (fun m => (m.pairId = g.1 : Bool))).length = 2 : Bool)) := by
    apply List.countP_congr
    intro g hg
    have hg2 : g.2 = halves.filter (fun m => (m.pairId = g.1 : Bool)) := by
      rw [hval g hg]
      apply List.filter_congr
      intro m hm
      have h1 : m.pairId ≠ "" := hne m hm
      simp [h1]
    rw [hg2]
  rw [hstep1]
  have hstep2 : (groupFold (fun m => !(m.pairId = "" : Bool)) (fun m => m.pairId) halves).countP
        (fun g => ((halves.filter (fun m => (m.pairId = g.1 : Bool))).length = 2 : Bool))
      = ((groupFold (fun m => !(m.pairId = "" : Bool)) (fun m => m.pairId) halves).map
          Prod.fst).countP
        (fun pid => ((halves.filter (fun m => (m.pairId = pid : Bool))).length = 2 : Bool)) := by
    rw [List.countP_map]
    rfl
  rw [hstep2]
  apply countP_eq_of_nodup_mem_iff _ hnd (List.nodup_dedup _)
  intro k
  rw [hkey k, List.mem_dedup, List.mem_map]
  constructor
  · rintro ⟨m, hm, hp, hk⟩
    exact ⟨m, hm, hk⟩
  · rintro ⟨m, hm, hk⟩
    refine ⟨m, hm, ?_, hk⟩
    simp [hne m hm]

/-- C3: for every committee and member list in which every HALF member
carries a (nonempty) pairId — as the data model guarantees — the derived
duration equals F + P, where F counts the committee's FULL members and P
counts the pairId-groups of its HALF members of size exactly 2. -/
theorem calculateDuration_eq_deriveDuration (cid : String) (members : List Member)
    (hne : ∀ m ∈ members, m.shareType = ShareType.HALF → m.pairId ≠ "") :
    calculateDuration cid members = deriveDuration cid members := by
  simp only [calculateDuration, deriveDuration]
  have hhalves : ∀ m ∈ (members.filter (fun m => (m.committeeId = cid : Bool))).filter
      (fun m => (m.shareType = ShareType.HALF : Bool)), m.pairId ≠ "" := by
    intro m hm
    rw [List.mem_filter] at hm
    obtain ⟨hm1, hm2⟩ := hm
    rw [List.mem_filter] at hm1
    rw [decide_eq_true_eq] at hm2
    exact hne m hm1.1 hm2
  split_ifs with hlt
  · have hP : (((members.filter (fun m => (m.committeeId = cid : Bool))).filter
          (fun m => (m.shareType = ShareType.HALF : Bool))).map (fun m => m.pairId)).dedup.filter
        (fun pid => ((((members.filter (fun m => (m.committeeId = cid : Bool))).filter
            (fun m => (m.shareType = ShareType.HALF : Bool))).filter
          (fun m => (m.pairId = pid : Bool))).length = 2 : Bool)) = [] := by
      rw [List.filter_eq_nil_iff]
      intro pid _ hcond
      rw [decide_eq_true_eq] at hcond
      have hle := List.length_filter_le (fun m => (m.pairId = pid : Bool))
        ((members.filter (fun m => (m.committeeId = cid : Bool))).filter
          (fun m => (m.shareType = ShareType.HALF : Bool)))
      omega
    rw [hP]
    simp
  · rw [groupFold_pairCount _ hhalves]

/-- Witness for C3 at a concrete committee: two FULL members, one
complete HALF pair and one lone unpaired HALF member give duration 3. -/
theorem calculateDuration_eq_deriveDuration_witness :
    (∀ m ∈ [Member.mk "f1" "c1" "A" "" ShareType.FULL "",
            Member.mk "f2" "c1" "B" "" ShareType.FULL "",
            Member.mk "h1" "c1" "C" "" ShareType.HALF "h1",
            Member.mk "h2" "c1" "D" "" ShareType.HALF "h1",
            Member.mk "h3" "c1" "E" "" ShareType.HALF "h3"],
        m.shareType = ShareType.HALF → m.pairId ≠ "") ∧
    calculateDuration "c1"
        [Member.mk "f1" "c1" "A" "" ShareType.FULL "",
         Member.mk "f2" "c1" "B" "" ShareType.FULL "",
         Member.mk "h1" "c1" "C" "" ShareType.HALF "h1",
         Member.mk "h2" "c1" "D" "" ShareType.HALF "h1",
         Member.mk "h3" "c1" "E" "" ShareType.HALF "h3"]
      = deriveDuration "c1"
        [Member.mk "f1" "c1" "A" "" ShareType.FULL "",
         Member.mk "f2" "c1" "B" "" ShareType.FULL "",
         Member.mk "h1" "c1" "C" "" ShareType.HALF "h1",
         Member.mk "h2" "c1" "D" "" ShareType.HALF "h1",
         Member.mk "h3" "c1" "E" "" ShareType.HALF "h3"] ∧
    calculateDuration "c1"
        [Member.mk "f1" "c1" "A" "" ShareType.FULL "",
         Member.mk "f2" "c1" "B" "" ShareType.FULL "",
         Member.mk "h1" "c1" "C" "" ShareType.HALF "h1",
         Member.mk "h2" "c1" "D" "" ShareType.HALF "h1",
         Member.mk "h3" "c1" "E" "" ShareType.HALF "h3"] = 3 :=
  ⟨by decide,
   calculateDuration_eq_deriveDuration "c1" _ (by decide),
   by decide⟩

/-! ## Calendar model

`parseDateAsUTC` and `Date.UTC(y, m-1, d)` yield the millisecond
timestamp of UTC midnight of a proleptic-Gregorian civil date.  We model
the date by its civil triple and compute its day number relative to
1970-01-01 with the standard civil-from-days algorithm; the timestamp is
`msPerDay` times that day number. -/

def msPerDay : Int := 1000 * 60 * 60 * 24

/-- Day number of a civil date relative to the Unix epoch (valid for
months 1..12). -/
def epochDays (d : CivilDate) : Int :=
  let y : Int := if d.month ≤ 2 then d.year - 1 else d.year
  let era : Int := (if 0 ≤ y then y else y - 399).fdiv 400
  let yoe : Int := y - era * 400
  let mp : Int := if 2 < d.month then d.month - 3 else d.month + 9
  let doy : Int := (153 * mp + 2).fdiv 5 + d.day - 1
  let doe : Int := yoe * 365 + yoe.fdiv 4 - yoe.fdiv 100 + doy
  era * 146097 + doe - 719468

/-- Sanity: the Unix epoch itself is day 0. -/
theorem epochDays_epoch : epochDays ⟨1970, 1, 1⟩ = 0 := by decide

/-- The UTC-midnight millisecond timestamp of a civil date
(`Date.UTC(year, month-1, day)`). -/
def utcTime (d : CivilDate) : Int := msPerDay * epochDays d

/-- `Math.ceil(a / b)` for integers `a` and positive `b`. -/
def jsCeilDiv (a b : Int) : Int := -((-a).fdiv b)

/-! ## Engine operation inputs (the `Omit<...>` argument types) -/

structure CommitteeInput where
  name : String
  monthlyAmount : Int
  startDate : String
  allowHalfShare : Bool
deriving DecidableEq, Repr

structure CommitteeUpdate where
  id : String
  name : String
  monthlyAmount : Int
  startDate : String
  allowHalfShare : Bool
deriving DecidableEq, Repr

structure MemberInput where
  committeeId : String
  name : String
  phone : String
  shareType : ShareType
  pairId : String
deriving DecidableEq, Repr

structure PaymentInput where
  committeeId : String
  memberIdOrPairId : String
  monthYear : MonthYear
  amount : Int
  datePaid : CivilDate
deriving DecidableEq, Repr

structure DrawInput where
  committeeId : String
  monthYear : MonthYear
  winnerIdOrPairId : String
  payoutDate : CivilDate
  amount : Int
deriving DecidableEq, Repr

/-- Replace the element at index `i` (the `arr[i] = ...` assignments
after a `findIndex`). -/
def modifyAt : List α → Nat → (α → α) → List α
  | [], _, _ => []
  | a :: t, 0, f => f a :: t
  | a :: t, n+1, f => a :: modifyAt t n f

/-- `findIndex(m => m.id === pid)` (− 1 becomes `none`). -/
def findIndexWithId (pid : String) : List Member → Option Nat
  | [] => none
  | m :: t => if m.id = pid then some 0 else (findIndexWithId pid t).map (fun i => i + 1)

/-- The `findIndex`-then-assign pattern of the source: update the first
member whose id is `pid`, if any. -/
def updateById (pid : String) (f : Member → Member) (l : List Member) : List Member :=
  match findIndexWithId pid l with
  | some i => modifyAt l i f
  | none => l

/-! ## Snapshot-level mutation operations

Each `apply*` function is the updater the source passes to
`updateStateAndHistory` (specialised to its arguments); generated
`uuidv4()` ids are taken as explicit `newId` parameters. -/

def applyAddCommittee (newId : String) (c : CommitteeInput) (s : AppState) : AppState :=
  { s with committees := s.committees ++
      [⟨newId, c.name, c.monthlyAmount, c.startDate, 0, c.allowHalfShare⟩] }

def applyUpdateCommittee (u : CommitteeUpdate) (s : AppState) : AppState :=
  match s.committees.find? (fun c => (c.id = u.id : Bool)) with
  | none => s
  | some existingCommittee =>
    if !u.allowHalfShare &&
        s.members.any (fun m =>
          (m.committeeId = u.id : Bool) && (m.shareType = ShareType.HALF : Bool)) then
      s
    else
      let updatedCommittee : Committee :=
        { id := u.id, name := u.name, monthlyAmount := u.monthlyAmount,
          startDate := u.startDate, durationMonths := existingCommittee.durationMonths,
          allowHalfShare := u.allowHalfShare }
      { s with committees := s.committees.map (fun c =>
          if c.id = updatedCommittee.id then updatedCommittee else c) }

def applyDeleteCommittee (id : String) (s : AppState) : AppState :=
  { committees := s.committees.filter (fun c => !(c.id = id : Bool)),
    members := s.members.filter (fun m => !(m.committeeId = id : Bool)),
    payments := s.payments.filter (fun p => !(p.committeeId = id : Bool)),
    draws := s.draws.filter (fun d => !(d.committeeId = id : Bool)) }

def applyAddMember (newId : String) (inp : MemberInput) (s : AppState) : AppState :=
  let base : Member := ⟨newId, inp.committeeId, inp.name, inp.phone, inp.shareType, inp.pairId⟩
  let updatedMembers :=
    if base.shareType = ShareType.HALF then
      if inp.pairId = "" then
        s.members ++ [{ base with pairId := newId }]
      else
        match findIndexWithId inp.pairId s.members with
        | some i =>
          let commonPairId := if newId < inp.pairId then newId else inp.pairId
          (modifyAt s.members i (fun m => { m with pairId := commonPairId })) ++
            [{ base with pairId := commonPairId }]
        | none => s.members ++ [{ base with pairId := newId }]
    else s.members ++ [base]
  let newDuration := calculateDuration inp.committeeId updatedMembers
  { s with members := updatedMembers,
           committees := s.committees.map (fun c =>
             if c.id = inp.committeeId then { c with durationMonths := newDuration } else c) }

/-- The two-phase unlink of `updateMember`: the original partner, if
any, is restored to the unpaired sentinel before the new pairing is
applied. -/
def membersAfterUnlink (originalMember : Member) (s : AppState) :
    List Member :=
  let originalPartner : Option Member :=
    if originalMember.shareType = ShareType.HALF then
      s.members.find? (fun m =>
        (m.pairId = originalMember.pairId : Bool) && !(m.id = originalMember.id : Bool))
    else none
  match originalPartner with
  | some op =>
    match findIndexWithId op.id s.members with
    | some i => modifyAt s.members i (fun m => { m with pairId := op.id })
    | none => s.members
  | none => s.members

/-- The relink phase of `updateMember`: apply the new pairing request to
the unlinked member list, returning the updated member (with its final
pairId) and the list with the new partner's pairId set. -/
def relinkPair (updatedMember : Member) (membersAfterUpdate : List Member) :
    Member × List Member :=
  let newPartnerIdFromModal := updatedMember.pairId
  if newPartnerIdFromModal = "" then
    ({ updatedMember with pairId := updatedMember.id }, membersAfterUpdate)
  else
    match findIndexWithId newPartnerIdFromModal membersAfterUpdate with
    | some i =>
      let commonPairId :=
        if updatedMember.id < newPartnerIdFromModal then updatedMember.id
        else newPartnerIdFromModal
      ({ updatedMember with pairId := commonPairId },
       modifyAt membersAfterUpdate i (fun m => { m with pairId := commonPairId }))
    | none => ({ updatedMember with pairId := updatedMember.id }, membersAfterUpdate)

def applyUpdateMember (updatedMember : Member) (s : AppState) : AppState :=
  match s.members.find? (fun m => (m.id = updatedMember.id : Bool)) with
  | none => s
  | some originalMember =>
    let relinked := relinkPair updatedMember (membersAfterUnlink originalMember s)
    let finalMembers :=
      match findIndexWithId updatedMember.id relinked.2 with
      | some i => modifyAt relinked.2 i (fun _ => relinked.1)
      | none => relinked.2
    let newDuration := calculateDuration updatedMember.committeeId finalMembers
    { s with members := finalMembers,
             committees := s.committees.map (fun c =>
               if c.id = updatedMember.committeeId then { c with durationMonths := newDuration }
               else c) }

/-- The member list `deleteMember` computes before its draw-count guard:
the member is filtered out and a surviving partner, if any, is reset to
the unpaired sentinel. -/
def membersAfterDelete (id : String) (memberToDelete : Member) (s : AppState) : List Member :=
  let partner : Option Member :=
    if memberToDelete.shareType = ShareType.HALF then
      s.members.find? (fun m =>
        (m.pairId = memberToDelete.pairId : Bool) && !(m.id = memberToDelete.id : Bool))
    else none
  let newMembers0 := s.members.filter (fun m => !(m.id = id : Bool))
  match partner with
  | some p =>
    match findIndexWithId p.id newMembers0 with
    | some i => modifyAt newMembers0 i (fun m => { m with pairId := p.id })
    | none => newMembers0
  | none => newMembers0

def applyDeleteMember (id : String) (s : AppState) : AppState :=
  match s.members.find? (fun m => (m.id = id : Bool)) with
  | none => s
  | some memberToDelete =>
    let newMembers := membersAfterDelete id memberToDelete s
    let newDuration := calculateDuration memberToDelete.committeeId newMembers
    let committeeDraws := s.draws.filter (fun d =>
      (d.committeeId = memberToDelete.committeeId : Bool))
    if newDuration < committeeDraws.length then s
    else
      { s with members := newMembers,
               committees := s.committees.map (fun c =>
                 if c.id = memberToDelete.committeeId then { c with durationMonths := newDuration }
                 else c) }

/-- `calculateDemerits`: due on the 10th of the payment's monthYear (UTC);
late days are the ceiling of the positive millisecond difference in whole
days. -/
def calculateDemerits (monthYear : MonthYear) (datePaid : CivilDate) : Int × Int :=
  let paidTime := utcTime datePaid
  let dueTime := utcTime ⟨monthYear.year, monthYear.month, 10⟩
  let timeDiff := paidTime - dueTime
  let lateDays := if 0 < timeDiff then jsCeilDiv timeDiff msPerDay else 0
  (lateDays, lateDays)

/-- The full payment record built from caller input: derived fields come
from `calculateDemerits`, never from the caller. -/
def buildPayment (id : String) (inp : PaymentInput) : Payment :=
  { id := id, committeeId := inp.committeeId, memberIdOrPairId := inp.memberIdOrPairId,
    monthYear := inp.monthYear, amount := inp.amount, datePaid := inp.datePaid,
    lateDays := (calculateDemerits inp.monthYear inp.datePaid).1,
    demeritPoints := (calculateDemerits inp.monthYear inp.datePaid).2 }

def applyAddPayment (newId : String) (inp : PaymentInput) (s : AppState) : AppState :=
  { s with payments := s.payments ++ [buildPayment newId inp] }

def applyUpdatePayment (inp : PaymentInput) (paymentId : String) (s : AppState) : AppState :=
  { s with payments := s.payments.map (fun p =>
      if p.id = paymentId then buildPayment paymentId inp else p) }

def applyDeletePayment (id : String) (s : AppState) : AppState :=
  { s with payments := s.payments.filter (fun p => !(p.id = id : Bool)) }

def applyAddDraw (newId : String) (inp : DrawInput) (s : AppState) : AppState :=
  { s with draws := s.draws ++
      [⟨newId, inp.committeeId, inp.monthYear, inp.winnerIdOrPairId, inp.payoutDate, inp.amount⟩] }

def applyUpdateDraw (inp : DrawInput) (drawId : String) (s : AppState) : AppState :=
  { s with draws := s.draws.map (fun d =>
      if d.id = drawId then
        ⟨drawId, inp.committeeId, inp.monthYear, inp.winnerIdOrPairId, inp.payoutDate, inp.amount⟩
      else d) }

def applyDeleteDraw (id : String) (s : AppState) : AppState :=
  { s with draws := s.draws.filter (fun d => !(d.id = id : Bool)) }

/-! ## History and undo -/

structure EngineState where
  state : AppState
  history : List AppState
deriving DecidableEq, Repr

def MAX_HISTORY_SIZE : Nat := 20

/-- `updateStateAndHistory`: pushes the old snapshot onto the history
(truncated to the newest 20 entries) and installs the updater's result.
Note the push happens regardless of whether the updater made a change. -/
def updateStateAndHistory (f : AppState → AppState) (e : EngineState) : EngineState :=
  let newHistory := e.state :: e.history
  ⟨f e.state,
   if MAX_HISTORY_SIZE < newHistory.length then newHistory.take MAX_HISTORY_SIZE else newHistory⟩

def undo (e : EngineState) : EngineState :=
  match e.history with
  | [] => e
  | lastState :: rest => ⟨lastState, rest⟩

def canUndo (e : EngineState) : Bool := 0 < e.history.length

/-! The public engine operations: each one wraps its snapshot updater in
`updateStateAndHistory`. -/

def addCommittee (newId : String) (c : CommitteeInput) : EngineState → EngineState :=
  updateStateAndHistory (applyAddCommittee newId c)

def updateCommittee (u : CommitteeUpdate) : EngineState → EngineState :=
  updateStateAndHistory (applyUpdateCommittee u)

def deleteCommittee (id : String) : EngineState → EngineState :=
  updateStateAndHistory (applyDeleteCommittee id)

def addMember (newId : String) (inp : MemberInput) : EngineState → EngineState :=
  updateStateAndHistory (applyAddMember newId inp)

def updateMember (u : Member) : EngineState → EngineState :=
  updateStateAndHistory (applyUpdateMember u)

def deleteMember (id : String) : EngineState → EngineState :=
  updateStateAndHistory (applyDeleteMember id)

def handleAddPayment (newId : String) (inp : PaymentInput) : EngineState → EngineState :=
  updateStateAndHistory (applyAddPayment newId inp)

def handleUpdatePayment (inp : PaymentInput) (paymentId : String) : EngineState → EngineState :=
  updateStateAndHistory (applyUpdatePayment inp paymentId)

def deletePayment (id : String) : EngineState → EngineState :=
  updateStateAndHistory (applyDeletePayment id)

def handleAddDraw (newId : String) (inp : DrawInput) : EngineState → EngineState :=
  updateStateAndHistory (applyAddDraw newId inp)

def handleUpdateDraw (inp : DrawInput) (drawId : String) : EngineState → EngineState :=
  updateStateAndHistory (applyUpdateDraw inp drawId)

def deleteDraw (id : String) : EngineState → EngineState :=
  updateStateAndHistory (applyDeleteDraw id)

/-! ## C7: late-day and demerit computation -/

theorem jsCeilDiv_mul (k : Int) : jsCeilDiv (msPerDay * k) msPerDay = k := by
  unfold jsCeilDiv
  rw [neg_mul_eq_mul_neg]
  rw [Int.mul_fdiv_cancel_left _ (by norm_num [msPerDay])]
  exact neg_neg k

/-- C7: the due date of a monthYear token is day 10 of that month;
lateDays is the (ceiling of the) day difference when positive and 0
otherwise; demeritPoints always equals lateDays; and both add and update
store the fields recomputed by `calculateDemerits` from the supplied
datePaid (the caller cannot supply them — `PaymentInput` has no such
fields).  Paying on the due day gives 0, one day later gives 1, thirty
days later gives 30. -/
theorem calculateDemerits_spec :
    (∀ (my : MonthYear) (d : CivilDate),
        calculateDemerits my d
          = (max 0 (epochDays d - epochDays ⟨my.year, my.month, 10⟩),
             max 0 (epochDays d - epochDays ⟨my.year, my.month, 10⟩))) ∧
    (∀ (newId : String) (inp : PaymentInput) (s : AppState),
        (applyAddPayment newId inp s).payments = s.payments ++ [buildPayment newId inp]) ∧
    (∀ (inp : PaymentInput) (pid : String) (s : AppState),
        (applyUpdatePayment inp pid s).payments
          = s.payments.map (fun p => if p.id = pid then buildPayment pid inp else p)) ∧
    (∀ (newId : String) (inp : PaymentInput),
        (buildPayment newId inp).lateDays = (calculateDemerits inp.monthYear inp.datePaid).1 ∧
        (buildPayment newId inp).demeritPoints
          = (calculateDemerits inp.monthYear inp.datePaid).1) ∧
    calculateDemerits ⟨2024, 1⟩ ⟨2024, 1, 10⟩ = (0, 0) ∧
    calculateDemerits ⟨2024, 1⟩ ⟨2024, 1, 11⟩ = (1, 1) ∧
    calculateDemerits ⟨2024, 1⟩ ⟨2024, 2, 9⟩ = (30, 30) := by
  refine ⟨?_, fun _ _ _ => rfl, fun _ _ _ => rfl, fun _ _ => ⟨rfl, rfl⟩,
    by decide, by decide, by decide⟩
  intro my d
  simp only [calculateDemerits, utcTime]
  rw [← mul_sub]
  by_cases h : 0 < epochDays d - epochDays ⟨my.year, my.month, 10⟩
  · have hpos : 0 < msPerDay * (epochDays d - epochDays ⟨my.year, my.month, 10⟩) :=
      mul_pos (by norm_num [msPerDay]) h
    rw [if_pos hpos, jsCeilDiv_mul, max_eq_right h.le]
  · have hle : epochDays d - epochDays ⟨my.year, my.month, 10⟩ ≤ 0 := le_of_not_lt h
    have hnp : msPerDay * (epochDays d - epochDays ⟨my.year, my.month, 10⟩) ≤ 0 := by
      have := mul_le_mul_of_nonneg_left hle (by norm_num [msPerDay] : (0:Int) ≤ msPerDay)
      simpa using this
    rw [if_neg (not_lt.mpr hnp), max_eq_left hle]

/-! ## C5: atomicity of the two invariant-guard rejections -/

/-- C5: when the draw-count guard of `deleteMember` fires, or the
half-share guard of `updateCommittee` fires, the call returns the
pre-call snapshot unchanged (all four collections intact). -/
theorem guard_rejections_atomic :
    (∀ (id : String) (s : AppState) (mtd : Member),
        s.members.find? (fun m => (m.id = id : Bool)) = some mtd →
        calculateDuration mtd.committeeId (membersAfterDelete id mtd s)
            < (s.draws.filter (fun d => (d.committeeId = mtd.committeeId : Bool))).length →
        applyDeleteMember id s = s) ∧
    (∀ (u : CommitteeUpdate) (s : AppState) (c : Committee),
        s.committees.find? (fun c => (c.id = u.id : Bool)) = some c →
        u.allowHalfShare = false →
        (s.members.any (fun m =>
          (m.committeeId = u.id : Bool) && (m.shareType = ShareType.HALF : Bool))) = true →
        applyUpdateCommittee u s = s) := by
  constructor
  · intro id s mtd hfind hguard
    simp only [applyDeleteMember, hfind]
    rw [if_pos hguard]
  · intro u s c hfind hhalf hany
    simp only [applyUpdateCommittee, hfind]
    rw [if_pos (by rw [hhalf, hany]; rfl)]

/-- Witness for C5: a committee with one FULL member and one recorded
draw rejects deleting that member (duration would drop to 0 < 1), and a
committee with a HALF member rejects disabling half-shares; both leave
the snapshot untouched. -/
theorem guard_rejections_atomic_witness :
    applyDeleteMember "m1"
        ⟨[⟨"c1", "N", 100, "2024-01-01", 1, true⟩],
         [⟨"m1", "c1", "A", "", ShareType.FULL, ""⟩],
         [],
         [⟨"d1", "c1", ⟨2024, 1⟩, "m1", ⟨2024, 1, 5⟩, 100⟩]⟩
      = ⟨[⟨"c1", "N", 100, "2024-01-01", 1, true⟩],
         [⟨"m1", "c1", "A", "", ShareType.FULL, ""⟩],
         [],
         [⟨"d1", "c1", ⟨2024, 1⟩, "m1", ⟨2024, 1, 5⟩, 100⟩]⟩ ∧
    applyUpdateCommittee ⟨"c1", "N", 100, "2024-01-01", false⟩
        ⟨[⟨"c1", "N", 100, "2024-01-01", 0, true⟩],
         [⟨"h1", "c1", "B", "", ShareType.HALF, "h1"⟩],
         [], []⟩
      = ⟨[⟨"c1", "N", 100, "2024-01-01", 0, true⟩],
         [⟨"h1", "c1", "B", "", ShareType.HALF, "h1"⟩],
         [], []⟩ :=
  ⟨guard_rejections_atomic.1 "m1" _ ⟨"m1", "c1", "A", "", ShareType.FULL, ""⟩
      (by decide) (by decide),
   guard_rejections_atomic.2 ⟨"c1", "N", 100, "2024-01-01", false⟩ _
      ⟨"c1", "N", 100, "2024-01-01", 0, true⟩ (by decide) rfl (by decide)⟩

/-! ## C10: mutations addressed to unknown ids are no-ops -/

/-- C10: `updateCommittee` with an unknown committee id, and
`updateMember`/`deleteMember` with an unknown member id, return the
snapshot unchanged. -/
theorem unknown_id_noop :
    (∀ (u : CommitteeUpdate) (s : AppState),
        s.committees.find? (fun c => (c.id = u.id : Bool)) = none →
        applyUpdateCommittee u s = s) ∧
    (∀ (um : Member) (s : AppState),
        s.members.find? (fun m => (m.id = um.id : Bool)) = none →
        applyUpdateMember um s = s) ∧
    (∀ (id : String) (s : AppState),
        s.members.find? (fun m => (m.id = id : Bool)) = none →
        applyDeleteMember id s = s) := by
  refine ⟨?_, ?_, ?_⟩
  · intro u s hfind
    simp only [applyUpdateCommittee, hfind]
  · intro um s hfind
    simp only [applyUpdateMember, hfind]
  · intro id s hfind
    simp only [applyDeleteMember, hfind]

/-- Witness for C10 on a one-committee, one-member snapshot with
non-matching ids. -/
theorem unknown_id_noop_witness :
    applyUpdateCommittee ⟨"nope", "N", 5, "2024-01-01", true⟩
        ⟨[⟨"c1", "N", 100, "2024-01-01", 0, true⟩], [], [], []⟩
      = ⟨[⟨"c1", "N", 100, "2024-01-01", 0, true⟩], [], [], []⟩ ∧
    applyUpdateMember ⟨"nope", "c1", "A", "", ShareType.FULL, ""⟩
        ⟨[], [⟨"m1", "c1", "A", "", ShareType.FULL, ""⟩], [], []⟩
      = ⟨[], [⟨"m1", "c1", "A", "", ShareType.FULL, ""⟩], [], []⟩ ∧
    applyDeleteMember "nope"
        ⟨[], [⟨"m1", "c1", "A", "", ShareType.FULL, ""⟩], [], []⟩
      = ⟨[], [⟨"m1", "c1", "A", "", ShareType.FULL, ""⟩], [], []⟩ :=
  ⟨unknown_id_noop.1 ⟨"nope", "N", 5, "2024-01-01", true⟩ _ (by decide),
   unknown_id_noop.2.1 ⟨"nope", "c1", "A", "", ShareType.FULL, ""⟩ _ (by decide),
   unknown_id_noop.2.2 "nope" _ (by decide)⟩

/-! ## C1: rejected operations still push a history entry (code bug)

`updateStateAndHistory` pushes the old snapshot before the updater's
verdict is known, so a rejected `updateCommittee` (unknown id) or a
guard-rejected `deleteMember` leaves the snapshot unchanged but still
adds a history entry and flips `canUndo` to true. -/

/-- C1: evaluating two rejected calls shows that the history stack grows
and `canUndo` changes, contradicting the claim that rejected operations
push nothing. -/
theorem rejected_call_pushes_history :
    (updateCommittee ⟨"c1", "N", 100, "2024-01-01", true⟩ ⟨emptyState, []⟩).state = emptyState ∧
    (updateCommittee ⟨"c1", "N", 100, "2024-01-01", true⟩ ⟨emptyState, []⟩).history
      = [emptyState] ∧
    canUndo (updateCommittee ⟨"c1", "N", 100, "2024-01-01", true⟩ ⟨emptyState, []⟩) = true ∧
    canUndo ⟨emptyState, []⟩ = false ∧
    (deleteMember "m1"
        ⟨⟨[⟨"c1", "N", 100, "2024-01-01", 1, true⟩],
          [⟨"m1", "c1", "A", "", ShareType.FULL, ""⟩],
          [],
          [⟨"d1", "c1", ⟨2024, 1⟩, "m1", ⟨2024, 1, 5⟩, 100⟩]⟩, []⟩).state
      = ⟨[⟨"c1", "N", 100, "2024-01-01", 1, true⟩],
         [⟨"m1", "c1", "A", "", ShareType.FULL, ""⟩],
         [],
         [⟨"d1", "c1", ⟨2024, 1⟩, "m1", ⟨2024, 1, 5⟩, 100⟩]⟩ ∧
    (deleteMember "m1"
        ⟨⟨[⟨"c1", "N", 100, "2024-01-01", 1, true⟩],
          [⟨"m1", "c1", "A", "", ShareType.FULL, ""⟩],
          [],
          [⟨"d1", "c1", ⟨2024, 1⟩, "m1", ⟨2024, 1, 5⟩, 100⟩]⟩, []⟩).history.length = 1 := by
  decide

/-! ## C6: the bounded undo history -/

def applyOps (ops : List (AppState → AppState)) (e : EngineState) : EngineState :=
  ops.foldl (fun e f => updateStateAndHistory f e) e

theorem applyOps_undo (ops : List (AppState → AppState)) :
    ∀ (e : EngineState), ops.length + e.history.length ≤ MAX_HISTORY_SIZE →
      undo^[ops.length] (applyOps ops e) = e := by
  induction ops with
  | nil =>
      intro e _
      simp [applyOps]
  | cons f rest ih =>
      intro e h
      have hlen : e.history.length < MAX_HISTORY_SIZE := by
        simp only [List.length_cons] at h
        omega
      have hupd : updateStateAndHistory f e = ⟨f e.state, e.state :: e.history⟩ := by
        simp only [updateStateAndHistory]
        rw [if_neg]
        simp only [List.length_cons]
        omega
      have hstep : applyOps (f :: rest) e = applyOps rest (updateStateAndHistory f e) := rfl
      rw [hstep, hupd]
      have hih := ih ⟨f e.state, e.state :: e.history⟩
        (by simp only [List.length_cons]; simp only [List.length_cons] at h; omega)
      show undo^[rest.length + 1] (applyOps rest ⟨f e.state, e.state :: e.history⟩) = e
      rw [Function.iterate_succ_apply', hih]
      show (⟨e.state, e.history⟩ : EngineState) = e
      cases e
      rfl

/-- C6: undoing N times after N ≤ 20 mutations restores the starting
snapshot and empty history; `undo` pops exactly the newest entry; `undo`
on empty history is a no-op; `canUndo` iff the history is non-empty; the
history length never exceeds 20 and a push at 20 entries drops the
oldest. -/
theorem undo_roundtrip_spec :
    (∀ (ops : List (AppState → AppState)) (s0 : AppState),
        ops.length ≤ 20 →
        undo^[ops.length] (applyOps ops ⟨s0, []⟩) = ⟨s0, []⟩) ∧
    (∀ (s x : AppState) (h : List AppState), undo ⟨s, x :: h⟩ = ⟨x, h⟩) ∧
    (∀ (s : AppState), undo ⟨s, []⟩ = ⟨s, []⟩) ∧
    (∀ (e : EngineState), canUndo e = true ↔ e.history ≠ []) ∧
    (∀ (f : AppState → AppState) (e : EngineState),
        e.history.length ≤ 20 → (updateStateAndHistory f e).history.length ≤ 20) ∧
    (∀ (f : AppState → AppState) (s : AppState) (h : List AppState),
        h.length = 20 →
        (updateStateAndHistory f ⟨s, h⟩).history = s :: h.take 19) := by
  refine ⟨?_, ?_, ?_, ?_, ?_, ?_⟩
  · intro ops s0 hle
    exact applyOps_undo ops ⟨s0, []⟩ (by simpa [MAX_HISTORY_SIZE] using hle)
  · intro s x h
    rfl
  · intro s
    rfl
  · intro e
    unfold canUndo
    rw [decide_eq_true_eq]
    constructor
    · intro h hnil
      rw [hnil] at h
      exact absurd h (by simp)
    · intro h
      cases he : e.history with
      | nil => exact absurd he h
      | cons a t => simp [he]
  · intro f e hle
    simp only [updateStateAndHistory]
    by_cases hgt : MAX_HISTORY_SIZE < (e.state :: e.history).length
    · rw [if_pos hgt]
      simp [MAX_HISTORY_SIZE]
    · rw [if_neg hgt]
      simp only [List.length_cons]
      simp only [MAX_HISTORY_SIZE, List.length_cons, not_lt] at hgt
      omega
  · intro f s h hlen
    simp only [updateStateAndHistory]
    rw [if_pos (by simp [MAX_HISTORY_SIZE, hlen])]
    show (s :: h).take 20 = s :: h.take 19
    rw [List.take_succ_cons]

/-- Witness for C6: two concrete mutations on the empty engine state,
undone twice, restore it; the other clauses evaluated at concrete
states. -/
theorem undo_roundtrip_spec_witness :
    undo^[2] (applyOps
        [applyAddCommittee "c1" ⟨"N", 100, "2024-01-01", true⟩,
         applyAddMember "m1" ⟨"c1", "A", "", ShareType.FULL, ""⟩]
        ⟨emptyState, []⟩) = ⟨emptyState, []⟩ ∧
    undo ⟨emptyState, [emptyState]⟩ = ⟨emptyState, []⟩ ∧
    undo ⟨emptyState, []⟩ = ⟨emptyState, []⟩ ∧
    (updateStateAndHistory (applyDeleteCommittee "c1")
        ⟨emptyState, List.replicate 20 emptyState⟩).history.length ≤ 20 ∧
    (updateStateAndHistory (applyDeleteCommittee "c1")
        ⟨emptyState, List.replicate 20 emptyState⟩).history
      = emptyState :: (List.replicate 20 emptyState).take 19 :=
  ⟨undo_roundtrip_spec.1
      [applyAddCommittee "c1" ⟨"N", 100, "2024-01-01", true⟩,
       applyAddMember "m1" ⟨"c1", "A", "", ShareType.FULL, ""⟩] emptyState (by decide),
   undo_roundtrip_spec.2.1 emptyState emptyState [],
   undo_roundtrip_spec.2.2.1 emptyState,
   undo_roundtrip_spec.2.2.2.2.1 _ ⟨emptyState, List.replicate 20 emptyState⟩ (by decide),
   undo_roundtrip_spec.2.2.2.2.2 _ emptyState _ (by decide)⟩

/-! ## C9: draw eligibility (`eligibleWinners` in `RecordDrawModal`,
new-draw path) -/

/-- The set of ids that already won a draw in the committee. -/
def wonIds (committeeId : String) (draws : List Draw) : List String :=
  (draws.filter (fun d => (d.committeeId = committeeId : Bool))).map
    (fun d => d.winnerIdOrPairId)

/-- The ids offered by `eligibleWinners` for a new (non-editing) draw:
FULL members that have not won, followed by the pairId-groups of HALF
members whose pairId has not won. -/
def eligibleWinnerIds (committeeId : String) (members : List Member) (draws : List Draw) :
    List String :=
  let won := wonIds committeeId draws
  let fullMembers := members.filter (fun m =>
    (m.shareType = ShareType.FULL : Bool) && !(won.contains m.id))
  let pairs := groupFold
    (fun m => (m.shareType = ShareType.HALF : Bool) && !(m.pairId = "" : Bool) &&
      !(won.contains m.pairId))
    (fun m => m.pairId) members
  fullMembers.map (fun m => m.id) ++ pairs.map Prod.fst

theorem not_mem_of_contains_eq_false {l : List String} {a : String}
    (h : l.contains a = false) : a ∉ l := by
  intro hmem
  have he : l.contains a = true := List.elem_iff.mpr hmem
  rw [h] at he
  exact Bool.false_ne_true he

theorem contains_eq_false_of_not_mem {l : List String} {a : String}
    (h : a ∉ l) : l.contains a = false := by
  by_contra hc
  rw [Bool.not_eq_false] at hc
  exact h (List.elem_iff.mp hc)

/-- C9: for a new draw, an id is eligible exactly when it is a candidate
id of the member list (a FULL member's id, or the pairId of some HALF
member) that does not occur among the committee's recorded winners; in
particular a previous winner is never eligible again. -/
theorem eligibleWinners_spec :
    (∀ (cid : String) (members : List Member) (draws : List Draw) (x : String),
      x ∈ eligibleWinnerIds cid members draws ↔
        ((∃ m ∈ members, m.shareType = ShareType.FULL ∧ m.id = x) ∨
         (∃ m ∈ members, m.shareType = ShareType.HALF ∧ ¬ m.pairId = "" ∧ m.pairId = x)) ∧
        x ∉ wonIds cid draws) ∧
    (∀ (cid : String) (members : List Member) (draws : List Draw) (x : String),
      x ∈ wonIds cid draws → x ∉ eligibleWinnerIds cid members draws) := by
  have main : ∀ (cid : String) (members : List Member) (draws : List Draw) (x : String),
      x ∈ eligibleWinnerIds cid members draws ↔
        ((∃ m ∈ members, m.shareType = ShareType.FULL ∧ m.id = x) ∨
         (∃ m ∈ members, m.shareType = ShareType.HALF ∧ ¬ m.pairId = "" ∧ m.pairId = x)) ∧
        x ∉ wonIds cid draws := by
    intro cid members draws x
    obtain ⟨-, -, hkey⟩ := groupFold_inv
      (fun m => (m.shareType = ShareType.HALF : Bool) && !(m.pairId = "" : Bool) &&
        !((wonIds cid draws).contains m.pairId))
      (fun m => m.pairId) members
    simp only [eligibleWinnerIds, List.mem_append]
    constructor
    · rintro (hx | hx)
      · rw [List.mem_map] at hx
        obtain ⟨m, hm, rfl⟩ := hx
        rw [List.mem_filter] at hm
        obtain ⟨hm, hcond⟩ := hm
        simp only [Bool.and_eq_true, decide_eq_true_eq, Bool.not_eq_true',
          decide_eq_false_iff_not] at hcond
        exact ⟨Or.inl ⟨m, hm, hcond.1, rfl⟩, not_mem_of_contains_eq_false hcond.2⟩
      · rw [List.mem_map] at hx
        obtain ⟨g, hg, rfl⟩ := hx
        obtain ⟨m, hm, hpm, hk⟩ := (hkey g.1).mp (List.mem_map_of_mem Prod.fst hg)
        simp only [Bool.and_eq_true, decide_eq_true_eq, Bool.not_eq_true',
          decide_eq_false_iff_not] at hpm
        refine ⟨Or.inr ⟨m, hm, hpm.1.1, hpm.1.2, hk⟩, ?_⟩
        rw [← hk]
        exact not_mem_of_contains_eq_false hpm.2
    · rintro ⟨hcand | hcand, hwon⟩
      · obtain ⟨m, hm, hfull, hid⟩ := hcand
        refine Or.inl ?_
        rw [List.mem_map]
        refine ⟨m, ?_, hid⟩
        rw [List.mem_filter]
        refine ⟨hm, ?_⟩
        simp only [Bool.and_eq_true, decide_eq_true_eq, Bool.not_eq_true',
          decide_eq_false_iff_not]
        exact ⟨hfull, contains_eq_false_of_not_mem (by rw [hid]; exact hwon)⟩
      · obtain ⟨m, hm, hhalf, hne, hpid⟩ := hcand
        refine Or.inr ?_
        have hx : x ∈ (groupFold
            (fun m => (m.shareType = ShareType.HALF : Bool) && !(m.pairId = "" : Bool) &&
              !((wonIds cid draws).contains m.pairId))
            (fun m => m.pairId) members).map Prod.fst := by
          rw [hkey]
          refine ⟨m, hm, ?_, hpid⟩
          simp only [Bool.and_eq_true, decide_eq_true_eq, Bool.not_eq_true',
            decide_eq_false_iff_not]
          exact ⟨⟨hhalf, hne⟩, contains_eq_false_of_not_mem (by rw [hpid]; exact hwon)⟩
        exact hx
  refine ⟨main, ?_⟩
  intro cid members draws x hwon helig
  exact ((main cid members draws x).mp helig).2 hwon

/-- Witness for C9: with one recorded draw won by "m1", the id "m1" is
among the committee's won ids and absent from the eligible set. -/
theorem eligibleWinners_spec_witness :
    "m1" ∈ wonIds "c1" [⟨"d1", "c1", ⟨2024, 1⟩, "m1", ⟨2024, 1, 5⟩, 100⟩] ∧
    "m1" ∉ eligibleWinnerIds "c1"
      [⟨"m1", "c1", "A", "", ShareType.FULL, ""⟩,
       ⟨"m2", "c1", "B", "", ShareType.FULL, ""⟩]
      [⟨"d1", "c1", ⟨2024, 1⟩, "m1", ⟨2024, 1, 5⟩, 100⟩] :=
  ⟨by decide,
   eligibleWinners_spec.2 "c1"
     [⟨"m1", "c1", "A", "", ShareType.FULL, ""⟩,
      ⟨"m2", "c1", "B", "", ShareType.FULL, ""⟩]
     [⟨"d1", "c1", ⟨2024, 1⟩, "m1", ⟨2024, 1, 5⟩, 100⟩] "m1" (by decide)⟩

/-! ## Raw reachability through the engine's mutation operations

Generated `uuidv4()` ids are modelled as arbitrary nonempty strings that
are fresh with respect to every id already in the snapshot; all other
arguments are arbitrary caller input. -/

def FreshId (i : String) (s : AppState) : Prop :=
  ¬ i = "" ∧ (∀ c ∈ s.committees, ¬ c.id = i) ∧ (∀ m ∈ s.members, ¬ m.id = i) ∧
  (∀ p ∈ s.payments, ¬ p.id = i) ∧ (∀ d ∈ s.draws, ¬ d.id = i)

inductive Step : AppState → AppState → Prop where
  | addCommittee (i : String) (c : CommitteeInput) (s : AppState) (h : FreshId i s) :
      Step s (applyAddCommittee i c s)
  | updateCommittee (u : CommitteeUpdate) (s : AppState) : Step s (applyUpdateCommittee u s)
  | deleteCommittee (i : String) (s : AppState) : Step s (applyDeleteCommittee i s)
  | addMember (i : String) (inp : MemberInput) (s : AppState) (h : FreshId i s) :
      Step s (applyAddMember i inp s)
  | updateMember (u : Member) (s : AppState) : Step s (applyUpdateMember u s)
  | deleteMember (i : String) (s : AppState) : Step s (applyDeleteMember i s)
  | addPayment (i : String) (inp : PaymentInput) (s : AppState) (h : FreshId i s) :
      Step s (applyAddPayment i inp s)
  | updatePayment (inp : PaymentInput) (pid : String) (s : AppState) :
      Step s (applyUpdatePayment inp pid s)
  | deletePayment (i : String) (s : AppState) : Step s (applyDeletePayment i s)
  | addDraw (i : String) (inp : DrawInput) (s : AppState) (h : FreshId i s) :
      Step s (applyAddDraw i inp s)
  | updateDraw (inp : DrawInput) (did : String) (s : AppState) :
      Step s (applyUpdateDraw inp did s)
  | deleteDraw (i : String) (s : AppState) : Step s (applyDeleteDraw i s)

inductive Reachable : AppState → Prop where
  | empty : Reachable emptyState
  | step {s t : AppState} : Reachable s → Step s t → Reachable t

/-! ## C8: the payment natural key is not enforced by the engine -/

/-- The claimed invariant: at most one payment per
(committeeId, memberIdOrPairId, monthYear) triple. -/
def paymentKeyUnique (s : AppState) : Prop :=
  s.payments.Pairwise (fun p q =>
    p.committeeId = q.committeeId ∧ p.memberIdOrPairId = q.memberIdOrPairId ∧
      p.monthYear = q.monthYear → p = q)

/-- The state produced by recording the same (committee, payer, month)
cell twice from the empty state. -/
def dupPaymentState : AppState :=
  applyAddPayment "p2" ⟨"c1", "m1", ⟨2024, 1⟩, 100, ⟨2024, 1, 5⟩⟩
    (applyAddPayment "p1" ⟨"c1", "m1", ⟨2024, 1⟩, 100, ⟨2024, 1, 5⟩⟩ emptyState)

theorem dupPaymentState_reachable : Reachable dupPaymentState :=
  Reachable.step
    (Reachable.step Reachable.empty
      (Step.addPayment "p1" ⟨"c1", "m1", ⟨2024, 1⟩, 100, ⟨2024, 1, 5⟩⟩ emptyState (by
        refine ⟨by decide, ?_, ?_, ?_, ?_⟩ <;> intro a ha <;> exact absurd ha
          (List.not_mem_nil a))))
    (Step.addPayment "p2" ⟨"c1", "m1", ⟨2024, 1⟩, 100, ⟨2024, 1, 5⟩⟩ _ (by
      refine ⟨by decide, by decide, by decide, by decide, by decide⟩))

theorem dupPaymentState_not_unique : ¬ paymentKeyUnique dupPaymentState := by
  intro h
  unfold paymentKeyUnique dupPaymentState at h
  simp only [applyAddPayment, buildPayment, emptyState, List.nil_append,
    List.cons_append] at h
  rw [List.pairwise_cons] at h
  have h1 := h.1 _ (List.mem_singleton_self _)
  have h2 := h1 ⟨rfl, rfl, rfl⟩
  exact (by decide : ¬ ("p1" : String) = "p2") (congrArg Payment.id h2)

/-- C8 counterexample: recording the same (committee, payer, month) cell
twice is an engine-reachable state with two payments sharing the triple,
so the claimed invariant fails on the code. -/
theorem paymentKeyUnique_counterexample :
    Reachable dupPaymentState ∧ ¬ paymentKeyUnique dupPaymentState :=
  ⟨dupPaymentState_reachable, dupPaymentState_not_unique⟩

/-- C8 amended: `handleAddPayment` performs no uniqueness check — it
unconditionally appends the new payment — and a state with two payments
sharing the (committeeId, memberIdOrPairId, monthYear) triple is
reachable through the engine's operations; the natural key holds only by
caller discipline (the grid only offers `record` on unpaid cells). -/
theorem addPayment_no_uniqueness_check :
    (∀ (newId : String) (inp : PaymentInput) (s : AppState),
        (applyAddPayment newId inp s).payments = s.payments ++ [buildPayment newId inp]) ∧
    (∃ s : AppState, Reachable s ∧ ¬ paymentKeyUnique s) :=
  ⟨fun _ _ _ => rfl, ⟨dupPaymentState, dupPaymentState_reachable, dupPaymentState_not_unique⟩⟩

/-! ## Helper lemmas for the pairing and duration invariants -/

/-- The canonical pair key: the lexicographically smaller id
(`a < b ? a : b`). -/
def minId (a b : String) : String := if a < b then a else b

theorem minId_comm (a b : String) : minId a b = minId b a := by
  unfold minId
  rcases lt_trichotomy a b with h | h | h
  · rw [if_pos h, if_neg (not_lt.mpr h.le)]
  · rw [h]
  · rw [if_neg (not_lt.mpr h.le), if_pos h]

theorem minId_cases (a b : String) : minId a b = a ∨ minId a b = b := by
  unfold minId
  by_cases h : a < b
  · exact Or.inl (if_pos h)
  · exact Or.inr (if_neg h)

theorem findIndexWithId_none_iff (pid : String) (l : List Member) :
    findIndexWithId pid l = none ↔ ∀ m ∈ l, ¬ m.id = pid := by
  induction l with
  | nil => simp [findIndexWithId]
  | cons a t ih =>
    by_cases ha : a.id = pid
    · simp [findIndexWithId, ha]
    · simp [findIndexWithId, ha, ih]

theorem exists_of_findIndexWithId_some {pid : String} {l : List Member} {i : Nat}
    (h : findIndexWithId pid l = some i) : ∃ m ∈ l, m.id = pid := by
  by_contra hc
  push_neg at hc
  have hn := (findIndexWithId_none_iff pid l).mpr (fun m hm => hc m hm)
  rw [hn] at h
  exact Option.noConfusion h

theorem modifyAt_eq_updateById {pid : String} {l : List Member} {i : Nat}
    (f : Member → Member) (h : findIndexWithId pid l = some i) :
    modifyAt l i f = updateById pid f l := by
  unfold updateById
  rw [h]

theorem updateById_eq_map (pid : String) (f : Member → Member) (l : List Member)
    (hnd : (l.map Member.id).Nodup) :
    updateById pid f l = l.map (fun m => if m.id = pid then f m else m) := by
  induction l with
  | nil => rfl
  | cons a t ih =>
    rw [List.map_cons, List.nodup_cons] at hnd
    by_cases ha : a.id = pid
    · unfold updateById findIndexWithId
      rw [if_pos ha]
      show f a :: t = _
      rw [List.map_cons, if_pos ha]
      congr 1
      have hfix : ∀ x ∈ t, (if x.id = pid then f x else x) = x := by
        intro x hx
        rw [if_neg]
        intro hxp
        have : a.id ∈ t.map Member.id := by
          rw [ha, ← hxp]
          exact List.mem_map_of_mem Member.id hx
        exact hnd.1 this
      exact ((List.map_congr_left hfix).trans (List.map_id t)).symm
    · unfold updateById findIndexWithId
      rw [if_neg ha, List.map_cons, if_neg ha]
      cases hfi : findIndexWithId pid t with
      | none =>
        simp only [hfi, Option.map_none']
        have ht := ih hnd.2
        unfold updateById at ht
        rw [hfi] at ht
        rw [← ht]
      | some i =>
        simp only [hfi, Option.map_some']
        show a :: modifyAt t i f = _
        congr 1
        have ht := ih hnd.2
        unfold updateById at ht
        rw [hfi] at ht
        exact ht

theorem find?_eq_head_filter (p : Member → Bool) (l : List Member) :
    l.find? p = (l.filter p).head? := by
  induction l with
  | nil => rfl
  | cons a t ih =>
    by_cases ha : p a
    · rw [List.find?_cons_of_pos _ ha, List.filter_cons, if_pos ha, List.head?_cons]
    · rw [List.find?_cons_of_neg _ (by simpa using ha), List.filter_cons,
        if_neg (by simpa using ha), ih]

/-- The other members sharing `m`'s pairId (the predicate of the
source's partner `find`). -/
def otherWithPairId (members : List Member) (m : Member) : List Member :=
  members.filter (fun x => (x.pairId = m.pairId : Bool) && !(x.id = m.id : Bool))

theorem find?_partner_eq (members : List Member) (m : Member) :
    members.find? (fun x => (x.pairId = m.pairId : Bool) && !(x.id = m.id : Bool))
      = (otherWithPairId members m).head? :=
  find?_eq_head_filter _ members

theorem otherWithPairId_append (l1 l2 : List Member) (m : Member) :
    otherWithPairId (l1 ++ l2) m = otherWithPairId l1 m ++ otherWithPairId l2 m := by
  unfold otherWithPairId
  rw [List.filter_append]

theorem otherWithPairId_map (l : List Member) (H : Member → Member)
    (hid : ∀ x, (H x).id = x.id) (m : Member) :
    otherWithPairId (l.map H) (H m)
      = (l.filter (fun y =>
          ((H y).pairId = (H m).pairId : Bool) && !(y.id = m.id : Bool))).map H := by
  unfold otherWithPairId
  rw [List.filter_map]
  congr 1
  apply List.filter_congr
  intro y _
  simp [Function.comp, hid]

theorem map_id_of_fix {l : List Member} {g : Member → Member} (h : ∀ x ∈ l, g x = x) :
    l.map g = l :=
  (List.map_congr_left h).trans (List.map_id l)

theorem filter_id_eq_singleton {l : List Member} {p : Member} {t : String}
    (hnd : (l.map Member.id).Nodup) (hp : p ∈ l) (hid : p.id = t) :
    l.filter (fun x => (x.id = t : Bool)) = [p] := by
  induction l with
  | nil => exact absurd hp (List.not_mem_nil p)
  | cons a tl ih =>
    rw [List.map_cons, List.nodup_cons] at hnd
    rcases List.mem_cons.mp hp with rfl | hp'
    · rw [List.filter_cons, if_pos (by simpa using hid)]
      have hnil : tl.filter (fun x => (x.id = t : Bool)) = [] := by
        rw [List.filter_eq_nil_iff]
        intro x hx hxt
        rw [decide_eq_true_eq] at hxt
        apply hnd.1
        rw [hid, ← hxt]
        exact List.mem_map_of_mem Member.id hx
      rw [hnil]
    · have ha : ¬ a.id = t := by
        intro hat
        apply hnd.1
        rw [hat, ← hid]
        exact List.mem_map_of_mem Member.id hp'
      rw [List.filter_cons, if_neg (by simpa using ha)]
      exact ih hnd.2 hp'

theorem filter_committee_map (cid : String) (l : List Member) (g : Member → Member)
    (hpres : ∀ x ∈ l, (g x).committeeId = x.committeeId)
    (hfix : ∀ x ∈ l, x.committeeId = cid → g x = x) :
    (l.map g).filter (fun m => (m.committeeId = cid : Bool))
      = l.filter (fun m => (m.committeeId = cid : Bool)) := by
  induction l with
  | nil => rfl
  | cons a t ih =>
    rw [List.map_cons, List.filter_cons, List.filter_cons]
    have hpa := hpres a (List.mem_cons_self a t)
    by_cases ha : a.committeeId = cid
    · rw [if_pos (by simpa [hpa] using ha), if_pos (by simpa using ha),
        hfix a (List.mem_cons_self a t) ha]
      congr 1
      exact ih (fun x hx => hpres x (List.mem_cons_of_mem a hx))
        (fun x hx => hfix x (List.mem_cons_of_mem a hx))
    · rw [if_neg (by simpa [hpa] using ha), if_neg (by simpa using ha)]
      exact ih (fun x hx => hpres x (List.mem_cons_of_mem a hx))
        (fun x hx => hfix x (List.mem_cons_of_mem a hx))

theorem calculateDuration_congr (cid : String) {l l' : List Member}
    (h : l'.filter (fun m => (m.committeeId = cid : Bool))
      = l.filter (fun m => (m.committeeId = cid : Bool))) :
    calculateDuration cid l' = calculateDuration cid l := by
  simp only [calculateDuration]
  rw [h]

theorem calculateDuration_of_no_members (cid : String) {l : List Member}
    (h : ∀ m ∈ l, ¬ m.committeeId = cid) : calculateDuration cid l = 0 := by
  have hf : l.filter (fun m => (m.committeeId = cid : Bool)) = [] := by
    rw [List.filter_eq_nil_iff]
    intro m hm
    simpa using h m hm
  simp only [calculateDuration, hf]
  rfl

/-! ## The pairing invariant -/

/-- The inductive member-list invariant: ids are unique and nonempty, a
FULL member's pairId is empty or its own id, and every HALF member is
either unpaired (own-id sentinel, nobody else shares its pairId) or
paired with exactly one HALF partner of the same committee under the
canonical (lexicographically smaller) pair key. -/
def MemOK (members : List Member) : Prop :=
  (members.map Member.id).Nodup ∧
  (∀ m ∈ members, ¬ m.id = "") ∧
  (∀ m ∈ members, m.shareType = ShareType.FULL → m.pairId = "" ∨ m.pairId = m.id) ∧
  (∀ m ∈ members, m.shareType = ShareType.HALF →
    ¬ m.pairId = "" ∧
    ((m.pairId = m.id ∧ otherWithPairId members m = []) ∨
     (∃ p, p ∈ members ∧ p.shareType = ShareType.HALF ∧ ¬ p.id = m.id ∧
        p.committeeId = m.committeeId ∧ m.pairId = minId m.id p.id ∧ p.pairId = m.pairId ∧
        otherWithPairId members m = [p])))

theorem MemOK.id_inj {members : List Member} (h : MemOK members) :
    ∀ a ∈ members, ∀ b ∈ members, a.id = b.id → a = b := by
  intro a ha b hb hab
  exact List.inj_on_of_nodup_map h.1 ha hb hab

theorem MemOK.half_pairId_target {members : List Member} (h : MemOK members) :
    ∀ m ∈ members, m.shareType = ShareType.HALF →
      ∃ w ∈ members, w.shareType = ShareType.HALF ∧ w.id = m.pairId := by
  intro m hm hhalf
  obtain ⟨-, hcase⟩ := h.2.2.2 m hm hhalf
  rcases hcase with ⟨hself, -⟩ | ⟨p, hp, hphalf, -, -, hmin, -, -⟩
  · exact ⟨m, hm, hhalf, hself.symm⟩
  · rcases minId_cases m.id p.id with hc | hc
    · exact ⟨m, hm, hhalf, by rw [hmin, hc]⟩
    · exact ⟨p, hp, hphalf, by rw [hmin, hc]⟩

theorem MemOK.pairId_is_member_id {members : List Member} (h : MemOK members) :
    ∀ m ∈ members, ¬ m.pairId = "" → ∃ w ∈ members, w.id = m.pairId := by
  intro m hm hne
  cases hst : m.shareType with
  | FULL =>
    rcases h.2.2.1 m hm hst with he | ho
    · exact absurd he hne
    · exact ⟨m, hm, ho.symm⟩
  | HALF =>
    obtain ⟨w, hw, -, hwid⟩ := h.half_pairId_target m hm hst
    exact ⟨w, hw, hwid⟩

theorem MemOK.fresh_not_pairId {members : List Member} (h : MemOK members) {i : String}
    (hne : ¬ i = "") (hfresh : ∀ w ∈ members, ¬ w.id = i) :
    ∀ m ∈ members, ¬ m.pairId = i := by
  intro m hm hpi
  by_cases hmp : m.pairId = ""
  · rw [hmp] at hpi
    exact hne hpi.symm
  · obtain ⟨w, hw, hwid⟩ := h.pairId_is_member_id m hm hmp
    exact hfresh w hw (by rw [hwid, hpi])

/-- The property claimed for pairing symmetry: every HALF member is
either at the unpaired sentinel, or has exactly one other HALF member
with the same pairId, equal to the lexicographically smaller of the two
ids; and no pairId is shared by more than two HALF members. -/
def PairingSym (members : List Member) : Prop :=
  (∀ m ∈ members, m.shareType = ShareType.HALF →
    m.pairId = m.id ∨
    ∃ p ∈ members, p.shareType = ShareType.HALF ∧ ¬ p.id = m.id ∧ p.pairId = m.pairId ∧
      m.pairId = minId m.id p.id ∧
      ∀ q ∈ members, q.shareType = ShareType.HALF → ¬ q.id = m.id → q.pairId = m.pairId →
        q = p) ∧
  (∀ m ∈ members,
    (members.filter (fun x =>
      (x.shareType = ShareType.HALF : Bool) && (x.pairId = m.pairId : Bool))).length ≤ 2)

theorem MemOK.pairingSym {members : List Member} (h : MemOK members) :
    PairingSym members := by
  have hnd : members.Nodup := h.1.of_map
  constructor
  · intro m hm hhalf
    obtain ⟨-, hcase⟩ := h.2.2.2 m hm hhalf
    rcases hcase with ⟨hself, -⟩ | ⟨p, hp, hphalf, hpne, -, hmin, hppid, hfilter⟩
    · exact Or.inl hself
    · refine Or.inr ⟨p, hp, hphalf, hpne, hppid, hmin, ?_⟩
      intro q hq hqhalf hqne hqpid
      have hqmem : q ∈ otherWithPairId members m := by
        unfold otherWithPairId
        rw [List.mem_filter]
        exact ⟨hq, by simp [hqpid, hqne]⟩
      rw [hfilter, List.mem_singleton] at hqmem
      exact hqmem
  · intro m hm
    by_cases hhalf : m.shareType = ShareType.HALF
    · have hsub : members.filter (fun x =>
          (x.shareType = ShareType.HALF : Bool) && (x.pairId = m.pairId : Bool))
          ⊆ m :: otherWithPairId members m := by
        intro x hx
        rw [List.mem_filter] at hx
        obtain ⟨hxm, hcond⟩ := hx
        rw [Bool.and_eq_true, decide_eq_true_eq, decide_eq_true_eq] at hcond
        by_cases hxid : x.id = m.id
        · rw [List.mem_cons]
          exact Or.inl (h.id_inj x hxm m hm hxid)
        · rw [List.mem_cons]
          refine Or.inr ?_
          unfold otherWithPairId
          rw [List.mem_filter]
          exact ⟨hxm, by simp [hcond.2, hxid]⟩
      have hndf : (members.filter (fun x =>
          (x.shareType = ShareType.HALF : Bool) && (x.pairId = m.pairId : Bool))).Nodup :=
        hnd.filter _
      have hlen := (hndf.subperm hsub).length_le
      have hlen2 : (m :: otherWithPairId members m).length ≤ 2 := by
        obtain ⟨-, hcase⟩ := h.2.2.2 m hm hhalf
        rcases hcase with ⟨-, hempty⟩ | ⟨p, hrest⟩
        · rw [hempty]
          simp
        · rw [hrest.2.2.2.2.2.2]
          simp
      omega
    · have hst : m.shareType = ShareType.FULL := by
        cases hms : m.shareType
        · rfl
        · exact absurd hms hhalf
      have hempty : members.filter (fun x =>
          (x.shareType = ShareType.HALF : Bool) && (x.pairId = m.pairId : Bool)) = [] := by
        rw [List.filter_eq_nil_iff]
        intro x hx hcond
        rw [Bool.and_eq_true, decide_eq_true_eq, decide_eq_true_eq] at hcond
        obtain ⟨hxne, -⟩ := h.2.2.2 x hx hcond.1
        rcases h.2.2.1 m hm hst with hmp | hmp
        · rw [hmp] at hcond
          exact hxne hcond.2
        · obtain ⟨w, hw, hwhalf, hwid⟩ := h.half_pairId_target x hx hcond.1
          have hwm : w = m := h.id_inj w hw m hm (by rw [hwid, hcond.2, hmp])
          rw [hwm, hst] at hwhalf
          exact ShareType.noConfusion hwhalf
      rw [hempty]
      decide

/-! ## The duration invariant and the guarded step relation -/

/-- Every committee's stored `durationMonths` agrees with
`calculateDuration` on the current member list. -/
def DurationInv (s : AppState) : Prop :=
  ∀ c ∈ s.committees, c.durationMonths = calculateDuration c.id s.members

def EngineInv (s : AppState) : Prop := MemOK s.members ∧ DurationInv s

/-- Precondition for `addCommittee`: the generated id is fresh (also no
member references it as committee). -/
def AddCommitteeOK (i : String) (s : AppState) : Prop :=
  FreshId i s ∧ ∀ m ∈ s.members, ¬ m.committeeId = i

/-- The pairing protocol's precondition for `addMember`: a FULL member
carries no partner reference, and a HALF member's partner reference, if
it resolves, resolves to a currently-unpaired HALF member of the same
committee. -/
def AddMemberOK (newId : String) (inp : MemberInput) (s : AppState) : Prop :=
  FreshId newId s ∧
  (inp.shareType = ShareType.FULL → inp.pairId = "") ∧
  (inp.shareType = ShareType.HALF →
    ∀ p ∈ s.members, p.id = inp.pairId →
      p.shareType = ShareType.HALF ∧ p.committeeId = inp.committeeId ∧ p.pairId = p.id ∧
      ∀ q ∈ s.members, q.pairId = p.id → q.id = p.id)

/-- The pairing protocol's precondition for `updateMember`: the member
keeps its committee, and the partner reference, if it resolves after the
unlink phase, is the member itself or an unpaired HALF member of the
same committee (the updated member's stale pairId aside). -/
def UpdateMemberOK (u : Member) (s : AppState) : Prop :=
  ∀ o ∈ s.members, o.id = u.id →
    o.committeeId = u.committeeId ∧
    (∀ np ∈ membersAfterUnlink o s, np.id = u.pairId →
      np.id = u.id ∨
      (u.shareType = ShareType.HALF ∧ np.shareType = ShareType.HALF ∧
       np.committeeId = u.committeeId ∧ np.pairId = np.id ∧
       ∀ q ∈ membersAfterUnlink o s, q.pairId = np.id → q.id = np.id ∨ q.id = u.id))

/-- One engine mutation whose caller input obeys the pairing protocol's
preconditions (UI discipline) and whose generated ids are fresh. -/
inductive GStep : AppState → AppState → Prop where
  | addCommittee (i : String) (c : CommitteeInput) (s : AppState) (h : AddCommitteeOK i s) :
      GStep s (applyAddCommittee i c s)
  | updateCommittee (u : CommitteeUpdate) (s : AppState) : GStep s (applyUpdateCommittee u s)
  | deleteCommittee (i : String) (s : AppState) : GStep s (applyDeleteCommittee i s)
  | addMember (i : String) (inp : MemberInput) (s : AppState) (h : AddMemberOK i inp s) :
      GStep s (applyAddMember i inp s)
  | updateMember (u : Member) (s : AppState) (h : UpdateMemberOK u s) :
      GStep s (applyUpdateMember u s)
  | deleteMember (i : String) (s : AppState) : GStep s (applyDeleteMember i s)
  | addPayment (i : String) (inp : PaymentInput) (s : AppState) :
      GStep s (applyAddPayment i inp s)
  | updatePayment (inp : PaymentInput) (pid : String) (s : AppState) :
      GStep s (applyUpdatePayment inp pid s)
  | deletePayment (i : String) (s : AppState) : GStep s (applyDeletePayment i s)
  | addDraw (i : String) (inp : DrawInput) (s : AppState) :
      GStep s (applyAddDraw i inp s)
  | updateDraw (inp : DrawInput) (did : String) (s : AppState) :
      GStep s (applyUpdateDraw inp did s)
  | deleteDraw (i : String) (s : AppState) : GStep s (applyDeleteDraw i s)

inductive GReachable : AppState → Prop where
  | empty : GReachable emptyState
  | step {s t : AppState} : GReachable s → GStep s t → GReachable t

/-! ## Preservation of the invariant: the easy operations -/

theorem filter_comm' (p q : Member → Bool) (l : List Member) :
    (l.filter q).filter p = (l.filter p).filter q := by
  rw [List.filter_filter, List.filter_filter]
  apply List.filter_congr
  intro a _
  exact Bool.and_comm _ _

theorem engineInv_empty : EngineInv emptyState := by
  refine ⟨⟨List.nodup_nil, ?_, ?_, ?_⟩, ?_⟩ <;>
    intro x hx <;> exact absurd hx (List.not_mem_nil x)

theorem engineInv_of_same_mc {s t : AppState} (h : EngineInv s)
    (hm : t.members = s.members) (hc : t.committees = s.committees) : EngineInv t := by
  obtain ⟨h1, h2⟩ := h
  refine ⟨by rw [hm]; exact h1, ?_⟩
  intro c hcm
  rw [hm]
  exact h2 c (by rw [← hc]; exact hcm)

theorem engineInv_addCommittee {s : AppState} (i : String) (c : CommitteeInput)
    (h : EngineInv s) (hok : AddCommitteeOK i s) : EngineInv (applyAddCommittee i c s) := by
  obtain ⟨hmem, hdur⟩ := h
  refine ⟨hmem, ?_⟩
  intro c' hc'
  show c'.durationMonths = calculateDuration c'.id s.members
  rcases List.mem_append.mp hc' with hc' | hc'
  · exact hdur c' hc'
  · rw [List.mem_singleton] at hc'
    subst hc'
    show (0 : Nat) = calculateDuration i s.members
    rw [calculateDuration_of_no_members i hok.2]

theorem engineInv_updateCommittee {s : AppState} (u : CommitteeUpdate)
    (h : EngineInv s) : EngineInv (applyUpdateCommittee u s) := by
  obtain ⟨hmem, hdur⟩ := h
  cases hfind : s.committees.find? (fun c => (c.id = u.id : Bool)) with
  | none =>
    simp only [applyUpdateCommittee, hfind]
    exact ⟨hmem, hdur⟩
  | some existing =>
    simp only [applyUpdateCommittee, hfind]
    by_cases hguard : (!u.allowHalfShare &&
        s.members.any (fun m =>
          (m.committeeId = u.id : Bool) && (m.shareType = ShareType.HALF : Bool))) = true
    · rw [if_pos hguard]
      exact ⟨hmem, hdur⟩
    · rw [if_neg hguard]
      refine ⟨hmem, ?_⟩
      intro c' hc'
      show c'.durationMonths = calculateDuration c'.id s.members
      rw [List.mem_map] at hc'
      obtain ⟨c0, hc0, rfl⟩ := hc'
      have hexmem : existing ∈ s.committees := List.mem_of_find?_eq_some hfind
      have hexid : existing.id = u.id := by
        have := List.find?_some hfind
        rwa [decide_eq_true_eq] at this
      by_cases hcid : c0.id = u.id
      · rw [if_pos hcid]
        show existing.durationMonths = calculateDuration u.id s.members
        rw [hdur existing hexmem, hexid]
      · rw [if_neg hcid]
        exact hdur c0 hc0

theorem memOK_filter_committee {l : List Member} (h : MemOK l) (delId : String) :
    MemOK (l.filter (fun m => !(m.committeeId = delId : Bool))) := by
  obtain ⟨hnd, hne, hfull, hhalf⟩ := h
  have hsub : ∀ x ∈ l.filter (fun m => !(m.committeeId = delId : Bool)), x ∈ l :=
    fun x hx => (List.mem_filter.mp hx).1
  refine ⟨?_, ?_, ?_, ?_⟩
  · exact ((List.filter_sublist l).map Member.id).nodup hnd
  · intro m hm
    exact hne m (hsub m hm)
  · intro m hm hst
    exact hfull m (hsub m hm) hst
  · intro m hm hst
    obtain ⟨hm_l, hmq⟩ := List.mem_filter.mp hm
    obtain ⟨hnep, hcase⟩ := hhalf m hm_l hst
    refine ⟨hnep, ?_⟩
    have hff : otherWithPairId (l.filter (fun m => !(m.committeeId = delId : Bool))) m
        = (otherWithPairId l m).filter (fun m => !(m.committeeId = delId : Bool)) := by
      unfold otherWithPairId
      exact filter_comm' _ _ l
    rcases hcase with ⟨hself, hempty⟩ | ⟨p, hp, h2, h3, h4, h5, h6, hlist⟩
    · left
      rw [hff, hempty]
      exact ⟨hself, rfl⟩
    · right
      have hpq : (!(p.committeeId = delId : Bool)) = true := by
        rw [h4]
        exact hmq
      refine ⟨p, List.mem_filter.mpr ⟨hp, hpq⟩, h2, h3, h4, h5, h6, ?_⟩
      rw [hff, hlist, List.filter_cons, if_pos hpq]
      rfl

theorem engineInv_deleteCommittee {s : AppState} (delId : String)
    (h : EngineInv s) : EngineInv (applyDeleteCommittee delId s) := by
  obtain ⟨hmem, hdur⟩ := h
  refine ⟨memOK_filter_committee hmem delId, ?_⟩
  intro c' hc'
  show c'.durationMonths
      = calculateDuration c'.id (s.members.filter (fun m => !(m.committeeId = delId : Bool)))
  obtain ⟨hc'm, hc'q⟩ := List.mem_filter.mp hc'
  rw [Bool.not_eq_true', decide_eq_false_iff_not] at hc'q
  rw [hdur c' hc'm]
  apply calculateDuration_congr
  rw [filter_comm']
  symm
  rw [List.filter_eq_self]
  intro m hm
  obtain ⟨-, hmc⟩ := List.mem_filter.mp hm
  rw [decide_eq_true_eq] at hmc
  simp [hmc, hc'q]

theorem engineInv_addPayment {s : AppState} (i : String) (inp : PaymentInput)
    (h : EngineInv s) : EngineInv (applyAddPayment i inp s) :=
  engineInv_of_same_mc h rfl rfl

theorem engineInv_updatePayment {s : AppState} (inp : PaymentInput) (pid : String)
    (h : EngineInv s) : EngineInv (applyUpdatePayment inp pid s) :=
  engineInv_of_same_mc h rfl rfl

theorem engineInv_deletePayment {s : AppState} (i : String)
    (h : EngineInv s) : EngineInv (applyDeletePayment i s) :=
  engineInv_of_same_mc h rfl rfl

theorem engineInv_addDraw {s : AppState} (i : String) (inp : DrawInput)
    (h : EngineInv s) : EngineInv (applyAddDraw i inp s) :=
  engineInv_of_same_mc h rfl rfl

theorem engineInv_updateDraw {s : AppState} (inp : DrawInput) (did : String)
    (h : EngineInv s) : EngineInv (applyUpdateDraw inp did s) :=
  engineInv_of_same_mc h rfl rfl

theorem engineInv_deleteDraw {s : AppState} (i : String)
    (h : EngineInv s) : EngineInv (applyDeleteDraw i s) :=
  engineInv_of_same_mc h rfl rfl

/-! ## Preservation of the invariant: addMember -/

theorem otherWithPairId_map' (l : List Member) (H : Member → Member) (z : Member) :
    otherWithPairId (l.map H) z
      = (l.filter (fun y =>
          ((H y).pairId = z.pairId : Bool) && !((H y).id = z.id : Bool))).map H := by
  unfold otherWithPairId
  rw [List.filter_map]
  rfl

theorem otherWithPairId_singleton_of_ne (nm m : Member) (hne : ¬ nm.pairId = m.pairId) :
    otherWithPairId [nm] m = [] := by
  unfold otherWithPairId
  simp [hne]

theorem otherWithPairId_singleton_of_eq (nm m : Member) (hpe : nm.pairId = m.pairId)
    (hid : ¬ nm.id = m.id) : otherWithPairId [nm] m = [nm] := by
  unfold otherWithPairId
  simp [hpe, hid]

theorem otherWithPairId_singleton_self (nm m : Member) (hid : nm.id = m.id) :
    otherWithPairId [nm] m = [] := by
  unfold otherWithPairId
  simp [hid]

/-- Duration bookkeeping common to the three member mutations: the
touched committee is recomputed on the new member list, and every other
committee's member set is unchanged. -/
theorem durationInv_member_op {s : AppState} {cid : String} {newMembers : List Member}
    (hdur : DurationInv s)
    (hother : ∀ c' : String, ¬ c' = cid →
      newMembers.filter (fun m => (m.committeeId = c' : Bool))
        = s.members.filter (fun m => (m.committeeId = c' : Bool))) :
    ∀ c ∈ s.committees.map (fun c =>
        if c.id = cid then { c with durationMonths := calculateDuration cid newMembers }
        else c),
      c.durationMonths = calculateDuration c.id newMembers := by
  intro c hc
  rw [List.mem_map] at hc
  obtain ⟨c0, hc0, rfl⟩ := hc
  by_cases hcid : c0.id = cid
  · rw [if_pos hcid]
    show calculateDuration cid newMembers = calculateDuration c0.id newMembers
    rw [hcid]
  · rw [if_neg hcid]
    rw [calculateDuration_congr c0.id (hother c0.id hcid)]
    exact hdur c0 hc0

theorem memOK_append_full {l : List Member} (h : MemOK l) (nm : Member)
    (hid : ¬ nm.id = "") (hfresh : ∀ m ∈ l, ¬ m.id = nm.id)
    (hful : nm.shareType = ShareType.FULL) (hpp : nm.pairId = "" ∨ nm.pairId = nm.id) :
    MemOK (l ++ [nm]) := by
  have hnp : ∀ m ∈ l, ¬ m.pairId = nm.id := MemOK.fresh_not_pairId h hid hfresh
  obtain ⟨hnd, hne, hfull, hhalf⟩ := h
  refine ⟨?_, ?_, ?_, ?_⟩
  · rw [List.map_append, List.nodup_append]
    refine ⟨hnd, by simp, ?_⟩
    intro a ha hb
    simp only [List.map_cons, List.map_nil, List.mem_singleton] at hb
    subst hb
    rw [List.mem_map] at ha
    obtain ⟨x, hx, hxa⟩ := ha
    exact hfresh x hx hxa
  · intro m hm
    rcases List.mem_append.mp hm with hm | hm
    · exact hne m hm
    · rw [List.mem_singleton] at hm
      subst hm
      exact hid
  · intro m hm hst
    rcases List.mem_append.mp hm with hm | hm
    · exact hfull m hm hst
    · rw [List.mem_singleton] at hm
      subst hm
      exact hpp
  · intro m hm hst
    rcases List.mem_append.mp hm with hm | hm
    · obtain ⟨hnep, hcase⟩ := hhalf m hm hst
      refine ⟨hnep, ?_⟩
      have hres : otherWithPairId (l ++ [nm]) m = otherWithPairId l m := by
        refine (otherWithPairId_append l [nm] m).trans ?_
        rw [otherWithPairId_singleton_of_ne nm m ?_, List.append_nil]
        rcases hpp with hpp | hpp
        · rw [hpp]
          intro hc
          exact hnep hc.symm
        · rw [hpp]
          intro hc
          exact hnp m hm hc.symm
      rcases hcase with ⟨h1, h2⟩ | ⟨p, hp, hrest⟩
      · exact Or.inl ⟨h1, by rw [hres, h2]⟩
      · exact Or.inr ⟨p, List.mem_append_left _ hp, hrest.1, hrest.2.1, hrest.2.2.1,
          hrest.2.2.2.1, hrest.2.2.2.2.1, by rw [hres]; exact hrest.2.2.2.2.2⟩
    · rw [List.mem_singleton] at hm
      subst hm
      rw [hful] at hst
      exact ShareType.noConfusion hst

theorem memOK_append_half_unpaired {l : List Member} (h : MemOK l) (nm : Member)
    (hid : ¬ nm.id = "") (hfresh : ∀ m ∈ l, ¬ m.id = nm.id)
    (hhalfnm : nm.shareType = ShareType.HALF) (hpp : nm.pairId = nm.id) :
    MemOK (l ++ [nm]) := by
  have hnp : ∀ m ∈ l, ¬ m.pairId = nm.id := MemOK.fresh_not_pairId h hid hfresh
  obtain ⟨hnd, hne, hfull, hhalf⟩ := h
  refine ⟨?_, ?_, ?_, ?_⟩
  · rw [List.map_append, List.nodup_append]
    refine ⟨hnd, by simp, ?_⟩
    intro a ha hb
    simp only [List.map_cons, List.map_nil, List.mem_singleton] at hb
    subst hb
    rw [List.mem_map] at ha
    obtain ⟨x, hx, hxa⟩ := ha
    exact hfresh x hx hxa
  · intro m hm
    rcases List.mem_append.mp hm with hm | hm
    · exact hne m hm
    · rw [List.mem_singleton] at hm
      subst hm
      exact hid
  · intro m hm hst
    rcases List.mem_append.mp hm with hm | hm
    · exact hfull m hm hst
    · rw [List.mem_singleton] at hm
      subst hm
      rw [hhalfnm] at hst
      exact ShareType.noConfusion hst
  · intro m hm hst
    rcases List.mem_append.mp hm with hm | hm
    · obtain ⟨hnep, hcase⟩ := hhalf m hm hst
      refine ⟨hnep, ?_⟩
      have hres : otherWithPairId (l ++ [nm]) m = otherWithPairId l m := by
        rw [otherWithPairId_append, otherWithPairId_singleton_of_ne nm m (by
          rw [hpp]
          intro hc
          exact hnp m hm hc.symm), List.append_nil]
      rcases hcase with ⟨h1, h2⟩ | ⟨p, hp, hrest⟩
      · exact Or.inl ⟨h1, by rw [hres, h2]⟩
      · exact Or.inr ⟨p, List.mem_append_left _ hp, hrest.1, hrest.2.1, hrest.2.2.1,
          hrest.2.2.2.1, hrest.2.2.2.2.1, by rw [hres]; exact hrest.2.2.2.2.2⟩
    · rw [List.mem_singleton] at hm
      subst hm
      refine ⟨by rw [hpp]; exact hid, Or.inl ⟨hpp, ?_⟩⟩
      rw [otherWithPairId_append, otherWithPairId_singleton_self _ _ rfl,
        List.append_nil]
      unfold otherWithPairId
      rw [List.filter_eq_nil_iff]
      intro x hx hcond
      rw [Bool.and_eq_true, decide_eq_true_eq] at hcond
      exact hnp x hx (by rw [hcond.1, hpp])

/-- Reduction of `applyAddMember` for a FULL input. -/
theorem applyAddMember_full (i : String) (inp : MemberInput) (s : AppState)
    (hsh : ¬ inp.shareType = ShareType.HALF) :
    applyAddMember i inp s =
      { s with
        members := s.members ++
          [⟨i, inp.committeeId, inp.name, inp.phone, inp.shareType, inp.pairId⟩],
        committees := s.committees.map (fun c =>
          if c.id = inp.committeeId then
            { c with
                durationMonths := calculateDuration inp.committeeId
                  (s.members ++
                    [⟨i, inp.committeeId, inp.name, inp.phone, inp.shareType, inp.pairId⟩]) }
          else c) } := by
  simp only [applyAddMember]
  rw [if_neg hsh]

/-- Reduction of `applyAddMember` for a HALF input with no usable
partner reference. -/
theorem applyAddMember_half_nopartner (i : String) (inp : MemberInput) (s : AppState)
    (hsh : inp.shareType = ShareType.HALF)
    (hbr : inp.pairId = "" ∨ findIndexWithId inp.pairId s.members = none) :
    applyAddMember i inp s =
      { s with
        members := s.members ++ [⟨i, inp.committeeId, inp.name, inp.phone, inp.shareType, i⟩],
        committees := s.committees.map (fun c =>
          if c.id = inp.committeeId then
            { c with
                durationMonths := calculateDuration inp.committeeId
                  (s.members ++
                    [⟨i, inp.committeeId, inp.name, inp.phone, inp.shareType, i⟩]) }
          else c) } := by
  simp only [applyAddMember]
  rw [if_pos hsh]
  rcases hbr with hpp | hfi
  · rw [if_pos hpp]
  · by_cases hpp : inp.pairId = ""
    · rw [if_pos hpp]
    · rw [if_neg hpp, hfi]

/-- Reduction of `applyAddMember` for a HALF input whose partner
reference resolves. -/
theorem applyAddMember_half_partner (i : String) (inp : MemberInput) (s : AppState)
    (idx : Nat) (hsh : inp.shareType = ShareType.HALF) (hpp : ¬ inp.pairId = "")
    (hfi : findIndexWithId inp.pairId s.members = some idx) :
    applyAddMember i inp s =
      { s with
        members :=
          (updateById inp.pairId (fun m => { m with pairId := minId i inp.pairId }) s.members)
            ++ [⟨i, inp.committeeId, inp.name, inp.phone, inp.shareType, minId i inp.pairId⟩],
        committees := s.committees.map (fun c =>
          if c.id = inp.committeeId then
            { c with
                durationMonths := calculateDuration inp.committeeId
                  ((updateById inp.pairId (fun m => { m with pairId := minId i inp.pairId })
                      s.members)
                    ++ [⟨i, inp.committeeId, inp.name, inp.phone, inp.shareType,
                          minId i inp.pairId⟩]) }
          else c) } := by
  simp only [applyAddMember, minId]
  rw [if_pos hsh, if_neg hpp, hfi, ← modifyAt_eq_updateById _ hfi]

/-- The pairing case of `addMember`: linking a fresh HALF member to a
currently-unpaired HALF partner of the same committee preserves the
member invariant. -/
theorem memOK_addMember_pair {l : List Member} (h : MemOK l)
    (t : String) (nm p0 : Member)
    (hine : ¬ nm.id = "") (hfresh : ∀ m ∈ l, ¬ m.id = nm.id)
    (hsh : nm.shareType = ShareType.HALF)
    (hp0 : p0 ∈ l) (hp0id : p0.id = t)
    (hph : p0.shareType = ShareType.HALF)
    (hpc : p0.committeeId = nm.committeeId)
    (hpunp : p0.pairId = p0.id)
    (hq : ∀ q ∈ l, q.pairId = p0.id → q.id = p0.id)
    (hnmp : nm.pairId = minId nm.id t) :
    MemOK ((updateById t (fun m => { m with pairId := minId nm.id t }) l)
      ++ [nm]) := by
  have hnd := h.1
  rw [updateById_eq_map _ _ l hnd]
  set common := minId nm.id t with hcom
  set G : Member → Member := fun x => if x.id = t then { x with pairId := common } else x
    with hG
  have htne : ¬ t = "" := by
    rw [← hp0id]
    exact h.2.1 p0 hp0
  have htni : ¬ t = nm.id := by
    rw [← hp0id]
    exact hfresh p0 hp0
  have hGid : ∀ x, (G x).id = x.id := by
    intro x
    by_cases hx : x.id = t <;> simp [hG, hx]
  have hGst : ∀ x, (G x).shareType = x.shareType := by
    intro x
    by_cases hx : x.id = t <;> simp [hG, hx]
  have hGcid : ∀ x, (G x).committeeId = x.committeeId := by
    intro x
    by_cases hx : x.id = t <;> simp [hG, hx]
  have hGfix : ∀ x, ¬ x.id = t → G x = x := by
    intro x hx
    simp [hG, hx]
  have hGp0 : G p0 = { p0 with pairId := common } := by
    simp [hG, hp0id]
  have hcne : ¬ common = "" := by
    rcases minId_cases nm.id t with hc | hc
    · rw [hcom, hc]
      exact hine
    · rw [hcom, hc]
      exact htne
  have hGpair : ∀ x ∈ l, ((G x).pairId = common ↔ x.id = t) := by
    intro x hx
    constructor
    · intro hxc
      by_contra hxt
      rw [hGfix x hxt] at hxc
      rcases minId_cases nm.id t with hc | hc
      · rw [hcom, hc] at hxc
        exact (MemOK.fresh_not_pairId h hine hfresh) x hx hxc
      · rw [hcom, hc] at hxc
        exact hxt (by
          rw [hq x hx (by rw [hxc, hp0id]), hp0id])
    · intro hxt
      simp [hG, hxt]
  have hmapids : (l.map G).map Member.id = l.map Member.id := by
    rw [List.map_map]
    exact List.map_congr_left (fun x _ => hGid x)
  have hmemmap : ∀ y ∈ l.map G, ∃ x ∈ l, y = G x := by
    intro y hy
    rw [List.mem_map] at hy
    obtain ⟨x, hx, hxy⟩ := hy
    exact ⟨x, hx, hxy.symm⟩
  -- key otherWithPairId computations
  have hother_nm : otherWithPairId (l.map G ++ [nm]) nm = [G p0] := by
    rw [otherWithPairId_append, otherWithPairId_singleton_self _ _ rfl, List.append_nil,
      otherWithPairId_map' l G nm]
    have hcongr : ∀ y ∈ l,
        (((G y).pairId = nm.pairId : Bool) && !((G y).id = nm.id : Bool))
          = decide (y.id = t) := by
      intro y hy
      by_cases hyt : y.id = t
      · have h1 : (G y).pairId = common := (hGpair y hy).mpr hyt
        have h2 : ¬ (G y).id = nm.id := by
          rw [hGid]
          exact hfresh y hy
        simp [h1, h2, hyt, hnmp]
      · have h1 : ¬ (G y).pairId = common := fun hc => hyt ((hGpair y hy).mp hc)
        simp [h1, hyt, hnmp]
    rw [List.filter_congr hcongr, filter_id_eq_singleton hnd hp0 hp0id]
    rfl
  have hother_p0 : otherWithPairId (l.map G ++ [nm]) (G p0) = [nm] := by
    rw [otherWithPairId_append, otherWithPairId_map' l G (G p0)]
    have hz1 : (G p0).pairId = common := by
      rw [hGp0]
    have hz2 : (G p0).id = t := by
      rw [hGid, hp0id]
    have hcongr : ∀ y ∈ l,
        (((G y).pairId = (G p0).pairId : Bool) && !((G y).id = (G p0).id : Bool))
          = false := by
      intro y hy
      by_cases hyt : y.id = t
      · have h2 : (G y).id = (G p0).id := by
          rw [hGid, hz2, hyt]
        simp [h2]
      · have h1 : ¬ (G y).pairId = (G p0).pairId := by
          rw [hz1]
          exact fun hc => hyt ((hGpair y hy).mp hc)
        simp [h1]
    rw [List.filter_congr hcongr, List.filter_false, List.map_nil, List.nil_append]
    exact otherWithPairId_singleton_of_eq nm (G p0) (by rw [hz1]; exact hnmp) (by
      rw [hz2]
      exact fun hc => htni hc.symm)
  have hother_old : ∀ x ∈ l, ¬ x.id = t →
      otherWithPairId (l.map G ++ [nm]) x = (otherWithPairId l x).map G := by
    intro x hx hxt
    have hxpc : ¬ x.pairId = common := by
      intro hc
      have : (G x).pairId = common := by
        rw [hGfix x hxt, hc]
      exact hxt ((hGpair x hx).mp this)
    rw [otherWithPairId_append, otherWithPairId_singleton_of_ne nm x (by
        rw [hnmp]
        exact fun hc => hxpc hc.symm), List.append_nil,
      otherWithPairId_map' l G x]
    unfold otherWithPairId
    congr 1
    apply List.filter_congr
    intro y hy
    by_cases hyt : y.id = t
    · have hy1 : ¬ (G y).pairId = x.pairId := by
        rw [(by simp [hG, hyt] : (G y).pairId = common)]
        exact fun hc => hxpc hc.symm
      have hy2 : ¬ y.pairId = x.pairId := by
        have hyp0 : y = p0 := h.id_inj y hy p0 hp0 (by rw [hyt, hp0id])
        rw [hyp0, hpunp]
        intro hc
        exact hxt (by rw [hq x hx (by rw [← hc]), hp0id])
      simp [hy1, hy2]
    · rw [hGfix y hyt]
  -- assemble MemOK
  refine ⟨?_, ?_, ?_, ?_⟩
  · rw [List.map_append, hmapids]
    rw [List.nodup_append]
    refine ⟨hnd, by simp, ?_⟩
    intro a ha hb
    simp only [List.map_cons, List.map_nil, List.mem_singleton] at hb
    subst hb
    rw [List.mem_map] at ha
    obtain ⟨x, hx, hxa⟩ := ha
    exact hfresh x hx hxa
  · intro m hm
    rcases List.mem_append.mp hm with hm | hm
    · obtain ⟨x, hx, rfl⟩ := hmemmap m hm
      rw [hGid]
      exact h.2.1 x hx
    · rw [List.mem_singleton] at hm
      subst hm
      exact hine
  · intro m hm hst
    rcases List.mem_append.mp hm with hm | hm
    · obtain ⟨x, hx, rfl⟩ := hmemmap m hm
      rw [hGst] at hst
      by_cases hxt : x.id = t
      · have hxp0 : x = p0 := h.id_inj x hx p0 hp0 (by rw [hxt, hp0id])
        rw [hxp0, hph] at hst
        exact ShareType.noConfusion hst
      · rw [hGfix x hxt]
        exact h.2.2.1 x hx hst
    · rw [List.mem_singleton] at hm
      subst hm
      rw [hsh] at hst
      exact ShareType.noConfusion hst
  · intro m hm hst
    rcases List.mem_append.mp hm with hm | hm
    · obtain ⟨x, hx, rfl⟩ := hmemmap m hm
      by_cases hxt : x.id = t
      · have hxp0 : x = p0 := h.id_inj x hx p0 hp0 (by rw [hxt, hp0id])
        subst hxp0
        refine ⟨by rw [hGp0]; exact hcne, Or.inr ⟨nm, ?_, ?_, ?_, ?_, ?_, ?_, ?_⟩⟩
        · exact List.mem_append_right _ (List.mem_singleton_self nm)
        · exact hsh
        · rw [hGp0]
          show ¬ nm.id = x.id
          intro hc
          apply htni
          rw [← hp0id, ← hc]
        · rw [hGp0]
          show nm.committeeId = x.committeeId
          exact hpc.symm
        · rw [hGp0]
          show common = minId x.id nm.id
          rw [hp0id, hcom]
          exact minId_comm nm.id t
        · rw [hGp0]
          exact hnmp
        · exact hother_p0
      · rw [hGfix x hxt] at hst ⊢
        obtain ⟨hnep, hcase⟩ := h.2.2.2 x hx hst
        refine ⟨hnep, ?_⟩
        rcases hcase with ⟨h1, h2⟩ | ⟨q, hql, hq1, hq2, hq3, hq4, hq5, hq6⟩
        · left
          rw [hother_old x hx hxt, h2]
          exact ⟨h1, rfl⟩
        · right
          have hqt : ¬ q.id = t := by
            intro hqt
            have hqp0 : q = p0 := h.id_inj q hql p0 hp0 (by rw [hqt, hp0id])
            have hxp : x.pairId = p0.id := by
              rw [← hq5, hqp0, hpunp]
            exact hxt (by rw [hq x hx hxp, hp0id])
          refine ⟨q, ?_, hq1, hq2, hq3, hq4, hq5, ?_⟩
          · refine List.mem_append_left _ ?_
            rw [← hGfix q hqt]
            exact List.mem_map_of_mem G hql
          · rw [hother_old x hx hxt, hq6]
            show [G q] = [q]
            rw [hGfix q hqt]
    · rw [List.mem_singleton] at hm
      subst hm
      refine ⟨by rw [hnmp]; exact hcne, Or.inr ⟨G p0, ?_, ?_, ?_, ?_, ?_, ?_, ?_⟩⟩
      · exact List.mem_append_left _ (List.mem_map_of_mem G hp0)
      · rw [hGst]
        exact hph
      · rw [hGid, hp0id]
        exact htni
      · rw [hGcid]
        exact hpc
      · rw [hGid, hp0id, ← hcom]
        exact hnmp
      · rw [hGp0]
        exact hnmp.symm
      · exact hother_nm

theorem filter_append_new_member (c' cid : String) (hc' : ¬ c' = cid) (l : List Member)
    (nm : Member) (hnmc : nm.committeeId = cid) :
    (l ++ [nm]).filter (fun m => (m.committeeId = c' : Bool))
      = l.filter (fun m => (m.committeeId = c' : Bool)) := by
  rw [List.filter_append]
  have hnil : [nm].filter (fun m => (m.committeeId = c' : Bool)) = [] := by
    rw [List.filter_cons, if_neg (by
      simp only [decide_eq_true_eq]
      rw [hnmc]
      exact fun hcc => hc' hcc.symm)]
    rfl
  rw [hnil, List.append_nil]

theorem engineInv_addMember {s : AppState} (i : String) (inp : MemberInput)
    (h : EngineInv s) (hok : AddMemberOK i inp s) : EngineInv (applyAddMember i inp s) := by
  obtain ⟨hmem, hdur⟩ := h
  obtain ⟨⟨hine, -, hmids, -, -⟩, hfullinp, hhalfinp⟩ := hok
  by_cases hsh : inp.shareType = ShareType.HALF
  · by_cases hpp : inp.pairId = ""
    · rw [applyAddMember_half_nopartner i inp s hsh (Or.inl hpp)]
      refine ⟨memOK_append_half_unpaired hmem _ hine hmids hsh rfl, ?_⟩
      refine durationInv_member_op hdur ?_
      intro c' hc'
      exact filter_append_new_member c' inp.committeeId hc' s.members _ rfl
    · cases hfi : findIndexWithId inp.pairId s.members with
      | none =>
        rw [applyAddMember_half_nopartner i inp s hsh (Or.inr hfi)]
        refine ⟨memOK_append_half_unpaired hmem _ hine hmids hsh rfl, ?_⟩
        refine durationInv_member_op hdur ?_
        intro c' hc'
        exact filter_append_new_member c' inp.committeeId hc' s.members _ rfl
      | some idx =>
        rw [applyAddMember_half_partner i inp s idx hsh hpp hfi]
        obtain ⟨p0, hp0, hp0id⟩ := exists_of_findIndexWithId_some hfi
        obtain ⟨hph, hpc, hpunp, hq⟩ := hhalfinp hsh p0 hp0 hp0id
        refine ⟨?_, ?_⟩
        · exact memOK_addMember_pair hmem inp.pairId
            ⟨i, inp.committeeId, inp.name, inp.phone, inp.shareType, minId i inp.pairId⟩
            p0 hine hmids hsh hp0 hp0id hph hpc hpunp hq rfl
        · refine durationInv_member_op hdur ?_
          intro c' hc'
          rw [filter_append_new_member c' inp.committeeId hc' _ _ rfl]
          rw [updateById_eq_map _ _ _ hmem.1]
          apply filter_committee_map
          · intro x _
            by_cases hx : x.id = inp.pairId <;> simp [hx]
          · intro x hx hxc
            rw [if_neg]
            intro hxt
            have hxp0 : x = p0 := hmem.id_inj x hx p0 hp0 (by rw [hxt, hp0id])
            apply hc'
            rw [← hxc, hxp0, hpc]
  · have hst : inp.shareType = ShareType.FULL := by
      cases hstt : inp.shareType
      · rfl
      · exact absurd hstt hsh
    rw [applyAddMember_full i inp s hsh]
    refine ⟨memOK_append_full hmem _ hine hmids hst (Or.inl (hfullinp hst)), ?_⟩
    refine durationInv_member_op hdur ?_
    intro c' hc'
    exact filter_append_new_member c' inp.committeeId hc' s.members _ rfl

/-! ## Preservation of the invariant: deleteMember -/

theorem MemOK.paired_witness {l : List Member} (h : MemOK l) {m p : Member} (hm : m ∈ l)
    (hhalf : m.shareType = ShareType.HALF) (how : otherWithPairId l m = [p]) :
    p ∈ l ∧ p.shareType = ShareType.HALF ∧ ¬ p.id = m.id ∧ p.committeeId = m.committeeId ∧
      m.pairId = minId m.id p.id ∧ p.pairId = m.pairId := by
  obtain ⟨-, hcase⟩ := h.2.2.2 m hm hhalf
  rcases hcase with ⟨-, hemp⟩ | ⟨q, hql, h1, h2, h3, h4, h5, h6⟩
  · rw [hemp] at how
    exact List.noConfusion how
  · rw [h6] at how
    injection how with hqp
    subst hqp
    exact ⟨hql, h1, h2, h3, h4, h5⟩

theorem MemOK.mem_otherWith_partner {l : List Member} (h : MemOK l) {w z : Member}
    (hw : w ∈ l) (hz : z ∈ l) (hne : ¬ w.id = z.id) (hpz : w.pairId = z.id) :
    w ∈ otherWithPairId l z := by
  have hwhalf : w.shareType = ShareType.HALF := by
    cases hws : w.shareType
    · rcases h.2.2.1 w hw hws with hp | hp
      · rw [hp] at hpz
        exact absurd hpz.symm (h.2.1 z hz)
      · exact absurd (congrArg Member.id (h.id_inj w hw z hz (by rw [← hp, hpz]))) hne
    · rfl
  obtain ⟨-, hcase⟩ := h.2.2.2 w hw hwhalf
  rcases hcase with ⟨hself, -⟩ | ⟨q, hql, h1, h2, h3, h4, h5, h6⟩
  · exact absurd (congrArg Member.id (h.id_inj w hw z hz (by rw [← hself, hpz]))) hne
  · have hmin : minId w.id q.id = z.id := by
      rw [← h4, hpz]
    have hzq : z = q := by
      rcases minId_cases w.id q.id with hc | hc
      · rw [hc] at hmin
        exact absurd (congrArg Member.id (h.id_inj w hw z hz hmin)) hne
      · rw [hc] at hmin
        exact (h.id_inj z hz q hql hmin.symm)
    subst hzq
    unfold otherWithPairId
    rw [List.mem_filter]
    refine ⟨hw, ?_⟩
    simp only [Bool.and_eq_true, decide_eq_true_eq, Bool.not_eq_true',
      decide_eq_false_iff_not]
    exact ⟨h5.symm, fun hc => h2 hc.symm⟩

/-- Under the invariant, a paired HALF member's partner list is mutual:
if `otherWithPairId l m = [p]` then `otherWithPairId l p = [m]`. -/
theorem MemOK.otherWith_symm {l : List Member} (h : MemOK l) {m p : Member} (hm : m ∈ l)
    (hhalf : m.shareType = ShareType.HALF) (how : otherWithPairId l m = [p]) :
    otherWithPairId l p = [m] := by
  obtain ⟨hpl, hph, hpne, -, -, hppid⟩ := h.paired_witness hm hhalf how
  have hmmem : m ∈ otherWithPairId l p := by
    unfold otherWithPairId
    rw [List.mem_filter]
    refine ⟨hm, ?_⟩
    simp only [Bool.and_eq_true, decide_eq_true_eq, Bool.not_eq_true',
      decide_eq_false_iff_not]
    exact ⟨hppid.symm, fun hc => hpne hc.symm⟩
  obtain ⟨-, hcase⟩ := h.2.2.2 p hpl hph
  rcases hcase with ⟨-, hemp⟩ | ⟨q, -, -, -, -, -, -, h6⟩
  · rw [hemp] at hmmem
    exact absurd hmmem (List.not_mem_nil m)
  · rw [h6] at hmmem ⊢
    rw [List.mem_singleton] at hmmem
    rw [hmmem]

theorem membersAfterDelete_full (id : String) (mtd : Member) (s : AppState)
    (hsh : ¬ mtd.shareType = ShareType.HALF) :
    membersAfterDelete id mtd s = s.members.filter (fun m => !(m.id = id : Bool)) := by
  simp only [membersAfterDelete]
  rw [if_neg hsh]

theorem membersAfterDelete_unpaired (id : String) (mtd : Member) (s : AppState)
    (hsh : mtd.shareType = ShareType.HALF)
    (hun : otherWithPairId s.members mtd = []) :
    membersAfterDelete id mtd s = s.members.filter (fun m => !(m.id = id : Bool)) := by
  simp only [membersAfterDelete]
  rw [if_pos hsh, find?_partner_eq, hun]
  rfl

theorem membersAfterDelete_paired (id : String) (mtd op : Member) (s : AppState)
    (hsh : mtd.shareType = ShareType.HALF)
    (hpair : otherWithPairId s.members mtd = [op]) :
    membersAfterDelete id mtd s
      = updateById op.id (fun m => { m with pairId := op.id })
          (s.members.filter (fun m => !(m.id = id : Bool))) := by
  simp only [membersAfterDelete]
  rw [if_pos hsh, find?_partner_eq, hpair]
  rfl

theorem applyDeleteMember_some (id : String) (s : AppState) (mtd : Member)
    (hfind : s.members.find? (fun m => (m.id = id : Bool)) = some mtd)
    (hguard : ¬ calculateDuration mtd.committeeId (membersAfterDelete id mtd s)
        < (s.draws.filter (fun d => (d.committeeId = mtd.committeeId : Bool))).length) :
    applyDeleteMember id s =
      { s with
        members := membersAfterDelete id mtd s,
        committees := s.committees.map (fun c =>
          if c.id = mtd.committeeId then
            { c with
                durationMonths :=
                  calculateDuration mtd.committeeId (membersAfterDelete id mtd s) }
          else c) } := by
  simp only [applyDeleteMember, hfind]
  rw [if_neg hguard]

theorem memOK_delete_nopartner {l : List Member} (h : MemOK l) (id : String) (mtd : Member)
    (hmtd : mtd ∈ l) (hmtdid : mtd.id = id)
    (hsafe : ¬ mtd.shareType = ShareType.HALF ∨ otherWithPairId l mtd = []) :
    MemOK (l.filter (fun m => !(m.id = id : Bool))) := by
  have hmo : MemOK l := h
  obtain ⟨hnd, hne, hfull, hhalf⟩ := h
  have hsub : ∀ x ∈ l.filter (fun m => !(m.id = id : Bool)), x ∈ l :=
    fun x hx => (List.mem_filter.mp hx).1
  refine ⟨((List.filter_sublist l).map Member.id).nodup hnd,
    fun m hm => hne m (hsub m hm), fun m hm hst => hfull m (hsub m hm) hst, ?_⟩
  intro m hm hst
  obtain ⟨hml, hmq⟩ := List.mem_filter.mp hm
  obtain ⟨hnep, hcase⟩ := hhalf m hml hst
  refine ⟨hnep, ?_⟩
  have hff : otherWithPairId (l.filter (fun m => !(m.id = id : Bool))) m
      = (otherWithPairId l m).filter (fun m => !(m.id = id : Bool)) := by
    unfold otherWithPairId
    exact filter_comm' _ _ l
  rcases hcase with ⟨h1, h2⟩ | ⟨p, hp, h1, h2, h3, h4, h5, h6⟩
  · left
    rw [hff, h2]
    exact ⟨h1, rfl⟩
  · right
    have hpid : ¬ p.id = id := by
      intro hpid
      have hpm : p = mtd := hmo.id_inj p hp mtd hmtd (by rw [hpid, hmtdid])
      rcases hsafe with hf | hemp
      · exact hf (hpm ▸ h1)
      · have hsym := hmo.otherWith_symm hml hst h6
        rw [hpm, hemp] at hsym
        exact List.noConfusion hsym
    have hpq : (!(p.id = id : Bool)) = true := by
      simp [hpid]
    refine ⟨p, List.mem_filter.mpr ⟨hp, hpq⟩, h1, h2, h3, h4, h5, ?_⟩
    rw [hff, h6, List.filter_cons, if_pos hpq]
    rfl

theorem memOK_delete_paired {l : List Member} (h : MemOK l) (id : String) (mtd op : Member)
    (hmtd : mtd ∈ l) (hmtdid : mtd.id = id) (hsh : mtd.shareType = ShareType.HALF)
    (hpair : otherWithPairId l mtd = [op]) :
    MemOK (updateById op.id (fun m => { m with pairId := op.id })
      (l.filter (fun m => !(m.id = id : Bool)))) := by
  obtain ⟨hopl, hoph, hopne, hopc, hmin, hoppid⟩ := h.paired_witness hmtd hsh hpair
  have hsym := h.otherWith_symm hmtd hsh hpair
  set l0 := l.filter (fun m => !(m.id = id : Bool)) with hl0
  have hnd0 : (l0.map Member.id).Nodup := ((List.filter_sublist l).map Member.id).nodup h.1
  rw [updateById_eq_map _ _ _ hnd0]
  set g : Member → Member := fun x => if x.id = op.id then { x with pairId := op.id } else x
    with hg
  have hgid : ∀ x, (g x).id = x.id := by
    intro x
    by_cases hx : x.id = op.id <;> simp [hg, hx]
  have hgst : ∀ x, (g x).shareType = x.shareType := by
    intro x
    by_cases hx : x.id = op.id <;> simp [hg, hx]
  have hgcid : ∀ x, (g x).committeeId = x.committeeId := by
    intro x
    by_cases hx : x.id = op.id <;> simp [hg, hx]
  have hgfix : ∀ x, ¬ x.id = op.id → g x = x := by
    intro x hx
    simp [hg, hx]
  have hgop : ∀ x, x.id = op.id → g x = { x with pairId := op.id } := by
    intro x hx
    simp [hg, hx]
  have hsub0 : ∀ x ∈ l0, x ∈ l := fun x hx => (List.mem_filter.mp hx).1
  have hnotid : ∀ x ∈ l0, ¬ x.id = id := by
    intro x hx
    have := (List.mem_filter.mp hx).2
    simpa using this
  have hkey : ∀ w ∈ l, w.pairId = op.id → w.id = op.id ∨ w.id = mtd.id := by
    intro w hw hwp
    by_cases hwid : w.id = op.id
    · exact Or.inl hwid
    · have hmem := h.mem_otherWith_partner hw hopl hwid hwp
      rw [hsym, List.mem_singleton] at hmem
      exact Or.inr (by rw [hmem])
  have hmem0 : ∀ y ∈ l0.map g, ∃ x ∈ l0, y = g x := by
    intro y hy
    rw [List.mem_map] at hy
    obtain ⟨x, hx, hxy⟩ := hy
    exact ⟨x, hx, hxy.symm⟩
  have hmapids : (l0.map g).map Member.id = l0.map Member.id := by
    rw [List.map_map]
    exact List.map_congr_left (fun x _ => hgid x)
  refine ⟨?_, ?_, ?_, ?_⟩
  · rw [hmapids]
    exact hnd0
  · intro m hm
    obtain ⟨x, hx, rfl⟩ := hmem0 m hm
    rw [hgid]
    exact h.2.1 x (hsub0 x hx)
  · intro m hm hst
    obtain ⟨x, hx, rfl⟩ := hmem0 m hm
    rw [hgst] at hst
    by_cases hxop : x.id = op.id
    · have hxeq : x = op := h.id_inj x (hsub0 x hx) op hopl hxop
      rw [hxeq, hoph] at hst
      exact ShareType.noConfusion hst
    · rw [hgfix x hxop]
      exact h.2.2.1 x (hsub0 x hx) hst
  · intro m hm hst
    obtain ⟨x, hx, rfl⟩ := hmem0 m hm
    by_cases hxop : x.id = op.id
    · -- x is the partner being reset to unpaired
      have hxeq : x = op := h.id_inj x (hsub0 x hx) op hopl hxop
      subst hxeq
      rw [hgop x rfl]
      refine ⟨h.2.1 x (hsub0 x hx), Or.inl ⟨rfl, ?_⟩⟩
      rw [← hgop x rfl, otherWithPairId_map' l0 g (g x)]
      have hfe : l0.filter (fun y =>
          ((g y).pairId = (g x).pairId : Bool) && !((g y).id = (g x).id : Bool)) = [] := by
        rw [List.filter_eq_nil_iff]
        intro w hw hcond
        rw [Bool.and_eq_true, decide_eq_true_eq, Bool.not_eq_true',
          decide_eq_false_iff_not] at hcond
        rw [hgid, hgid, hgop x rfl] at hcond
        by_cases hwx : w.id = x.id
        · exact hcond.2 hwx
        · rw [hgfix w hwx] at hcond
          rcases hkey w (hsub0 w hw) hcond.1 with hc | hc
          · exact hwx hc
          · exact hnotid w hw (by rw [hc, hmtdid])
      rw [hfe]
      rfl
    · rw [hgfix x hxop] at hst ⊢
      have hxl : x ∈ l := hsub0 x hx
      have hxnotmtd : ¬ x.pairId = op.id := by
        intro hc
        have hmem := h.mem_otherWith_partner hxl hopl hxop hc
        rw [hsym, List.mem_singleton] at hmem
        exact hnotid x hx (by rw [hmem, hmtdid])
      have hxnotmtdpid : ¬ x.pairId = mtd.pairId := by
        intro hc
        have hxm : x ∈ otherWithPairId l mtd := by
          unfold otherWithPairId
          rw [List.mem_filter]
          refine ⟨hxl, ?_⟩
          simp only [Bool.and_eq_true, decide_eq_true_eq, Bool.not_eq_true',
            decide_eq_false_iff_not]
          exact ⟨hc, fun hcc => hnotid x hx (by rw [hcc, hmtdid])⟩
        rw [hpair, List.mem_singleton] at hxm
        exact hxop (by rw [hxm])
      obtain ⟨hnep, hcase⟩ := h.2.2.2 x hxl hst
      refine ⟨hnep, ?_⟩
      have hcompute : otherWithPairId (l0.map g) x
          = ((otherWithPairId l x).filter (fun m => !(m.id = id : Bool))).map g := by
        rw [otherWithPairId_map' l0 g x]
        have hcongr : ∀ w ∈ l0,
            (((g w).pairId = x.pairId : Bool) && !((g w).id = x.id : Bool))
              = ((w.pairId = x.pairId : Bool) && !(w.id = x.id : Bool)) := by
          intro w hw
          by_cases hwop : w.id = op.id
          · have hweq : w = op := h.id_inj w (hsub0 w hw) op hopl hwop
            have hl : ¬ (g w).pairId = x.pairId := by
              rw [hgop w hwop]
              show ¬ op.id = x.pairId
              exact fun hc => hxnotmtd hc.symm
            have hr : ¬ w.pairId = x.pairId := by
              rw [hweq, hoppid]
              exact fun hc => hxnotmtdpid hc.symm
            simp [hl, hr]
          · rw [hgfix w hwop]
        rw [List.filter_congr hcongr]
        show (l0.filter _).map g = _
        rw [hl0]
        unfold otherWithPairId
        rw [filter_comm']
      rcases hcase with ⟨h1, h2⟩ | ⟨p, hp, h1, h2, h3, h4, h5, h6⟩
      · left
        rw [hcompute, h2]
        exact ⟨h1, rfl⟩
      · right
        have hpnotmtd : ¬ p.id = id := by
          intro hc
          have hpm : p = mtd := h.id_inj p hp mtd hmtd (by rw [hc, hmtdid])
          have hs2 := h.otherWith_symm hxl hst h6
          rw [hpm, hpair] at hs2
          injection hs2 with hxo
          exact hxop (by rw [← hxo])
        have hpnotop : ¬ p.id = op.id := by
          intro hc
          have hpo : p = op := h.id_inj p hp op hopl hc
          have hs2 := h.otherWith_symm hxl hst h6
          rw [hpo, hsym] at hs2
          injection hs2 with hxm
          exact hnotid x hx (by rw [← hxm, hmtdid])
        have hpq : (!(p.id = id : Bool)) = true := by
          simp [hpnotmtd]
        have hpl0 : p ∈ l0 := List.mem_filter.mpr ⟨hp, hpq⟩
        refine ⟨p, ?_, h1, h2, h3, h4, h5, ?_⟩
        · rw [← hgfix p hpnotop]
          exact List.mem_map_of_mem g hpl0
        · rw [hcompute, h6, List.filter_cons, if_pos hpq]
          show [g p] = [p]
          rw [hgfix p hpnotop]

theorem filter_erase_other_committee {l : List Member} (mtd : Member) (id c' : String)
    (hinj : ∀ x ∈ l, x.id = id → x = mtd) (hc' : ¬ c' = mtd.committeeId) :
    (l.filter (fun m => !(m.id = id : Bool))).filter (fun m => (m.committeeId = c' : Bool))
      = l.filter (fun m => (m.committeeId = c' : Bool)) := by
  rw [filter_comm', List.filter_eq_self]
  intro m hm
  obtain ⟨hml, hmc⟩ := List.mem_filter.mp hm
  rw [decide_eq_true_eq] at hmc
  simp only [Bool.not_eq_true', decide_eq_false_iff_not]
  intro hmid
  apply hc'
  rw [← hmc, hinj m hml hmid]

theorem engineInv_deleteMember {s : AppState} (id : String)
    (h : EngineInv s) : EngineInv (applyDeleteMember id s) := by
  obtain ⟨hmem, hdur⟩ := h
  cases hfind : s.members.find? (fun m => (m.id = id : Bool)) with
  | none =>
    simp only [applyDeleteMember, hfind]
    exact ⟨hmem, hdur⟩
  | some mtd =>
    have hmtdl : mtd ∈ s.members := List.mem_of_find?_eq_some hfind
    have hmtdid : mtd.id = id := by
      have := List.find?_some hfind
      rwa [decide_eq_true_eq] at this
    have hinj : ∀ x ∈ s.members, x.id = id → x = mtd := by
      intro x hx hxid
      exact hmem.id_inj x hx mtd hmtdl (by rw [hxid, hmtdid])
    by_cases hguard : calculateDuration mtd.committeeId (membersAfterDelete id mtd s)
        < (s.draws.filter (fun d => (d.committeeId = mtd.committeeId : Bool))).length
    · simp only [applyDeleteMember, hfind]
      rw [if_pos hguard]
      exact ⟨hmem, hdur⟩
    · rw [applyDeleteMember_some id s mtd hfind hguard]
      by_cases hsh : mtd.shareType = ShareType.HALF
      · obtain ⟨-, hcase⟩ := hmem.2.2.2 mtd hmtdl hsh
        rcases hcase with ⟨-, hemp⟩ | ⟨p, hpmem, hp1, hp2, hp3, hp4, hp5, hp6⟩
        · rw [membersAfterDelete_unpaired id mtd s hsh hemp]
          refine ⟨memOK_delete_nopartner hmem id mtd hmtdl hmtdid (Or.inr hemp), ?_⟩
          refine durationInv_member_op hdur ?_
          intro c' hc'
          exact filter_erase_other_committee mtd id c' hinj hc'
        · rw [membersAfterDelete_paired id mtd p s hsh hp6]
          refine ⟨memOK_delete_paired hmem id mtd p hmtdl hmtdid hsh hp6, ?_⟩
          refine durationInv_member_op hdur ?_
          intro c' hc'
          have hnd0 : ((s.members.filter (fun m => !(m.id = id : Bool))).map Member.id).Nodup :=
            ((List.filter_sublist s.members).map Member.id).nodup hmem.1
          rw [updateById_eq_map _ _ _ hnd0]
          rw [filter_committee_map c' _ _ (by
              intro x _
              by_cases hx : x.id = p.id <;> simp [hx]) (by
              intro x hx hxc
              rw [if_neg]
              intro hxp
              have hxeq : x = p := hmem.id_inj x ((List.mem_filter.mp hx).1) p hpmem hxp
              apply hc'
              rw [← hxc, hxeq, hp3])]
          exact filter_erase_other_committee mtd id c' hinj hc'
      · rw [membersAfterDelete_full id mtd s hsh]
        refine ⟨memOK_delete_nopartner hmem id mtd hmtdl hmtdid (Or.inl hsh), ?_⟩
        refine durationInv_member_op hdur ?_
        intro c' hc'
        exact filter_erase_other_committee mtd id c' hinj hc'

/-! ## Preservation of the invariant: updateMember -/

theorem minId_self (a : String) : minId a a = a := by
  unfold minId
  rw [if_neg (lt_irrefl a)]

theorem findIndexWithId_some_of_mem {pid : String} {l : List Member}
    (hz : ∃ z ∈ l, z.id = pid) : ∃ i, findIndexWithId pid l = some i := by
  cases hfi : findIndexWithId pid l with
  | some i => exact ⟨i, rfl⟩
  | none =>
    obtain ⟨z, hzl, hzid⟩ := hz
    exact absurd hzid ((findIndexWithId_none_iff pid l).mp hfi z hzl)

theorem updateById_of_forall_ne (pid : String) (f : Member → Member) {l : List Member}
    (h : ∀ m ∈ l, ¬ m.id = pid) : updateById pid f l = l := by
  unfold updateById
  rw [(findIndexWithId_none_iff pid l).mpr h]

theorem updateById_map_id {l : List Member} (hnd : (l.map Member.id).Nodup)
    (qid : String) (g : Member → Member) (hgid : ∀ x ∈ l, (g x).id = x.id) :
    (updateById qid g l).map Member.id = l.map Member.id := by
  rw [updateById_eq_map _ _ _ hnd, List.map_map]
  apply List.map_congr_left
  intro x hx
  by_cases hxq : x.id = qid <;> simp [Function.comp, hxq, hgid x hx]

theorem updateById_id_com {l : List Member} (hnd : (l.map Member.id).Nodup)
    (qid : String) (g : Member → Member)
    (hgid : ∀ x, (g x).id = x.id) (hgc : ∀ x, (g x).committeeId = x.committeeId) :
    ∀ x ∈ updateById qid g l, ∃ y ∈ l, x.id = y.id ∧ x.committeeId = y.committeeId := by
  rw [updateById_eq_map _ _ _ hnd]
  intro x hx
  obtain ⟨y, hy, rfl⟩ := List.mem_map.mp hx
  by_cases hyq : y.id = qid
  · exact ⟨y, hy, by rw [if_pos hyq, hgid], by rw [if_pos hyq, hgc]⟩
  · exact ⟨y, hy, by rw [if_neg hyq], by rw [if_neg hyq]⟩

theorem exists_id_of_map_id_eq {l l' : List Member}
    (h : l'.map Member.id = l.map Member.id) {z : Member} (hz : z ∈ l) {pid : String}
    (hzid : z.id = pid) : ∃ w ∈ l', w.id = pid := by
  have hmem : pid ∈ l'.map Member.id := by
    rw [h, ← hzid]
    exact List.mem_map_of_mem Member.id hz
  obtain ⟨w, hw, hwid⟩ := List.mem_map.mp hmem
  exact ⟨w, hw, hwid⟩

theorem filter_ne_updateById (pid qid : String) (g : Member → Member)
    (hgid : ∀ x, (g x).id = x.id) {l : List Member} (hnd : (l.map Member.id).Nodup) :
    (updateById qid g l).filter (fun m => !(m.id = pid : Bool))
      = updateById qid g (l.filter (fun m => !(m.id = pid : Bool))) := by
  have hnd' : ((l.filter (fun m => !(m.id = pid : Bool))).map Member.id).Nodup :=
    ((List.filter_sublist l).map Member.id).nodup hnd
  rw [updateById_eq_map _ _ _ hnd, updateById_eq_map _ _ _ hnd', List.filter_map]
  congr 1
  apply List.filter_congr
  intro x _
  by_cases hx : x.id = qid <;> simp [Function.comp, hx, hgid]

theorem filter_committee_updateById (c' cid qid : String) (hc' : ¬ c' = cid)
    (g : Member → Member) {l : List Member} (hnd : (l.map Member.id).Nodup)
    (hq : ∀ x ∈ l, x.id = qid → x.committeeId = cid ∧ (g x).committeeId = cid) :
    (updateById qid g l).filter (fun m => (m.committeeId = c' : Bool))
      = l.filter (fun m => (m.committeeId = c' : Bool)) := by
  rw [updateById_eq_map _ _ _ hnd]
  apply filter_committee_map
  · intro x hx
    by_cases hxq : x.id = qid
    · rw [if_pos hxq, (hq x hx hxq).2, (hq x hx hxq).1]
    · rw [if_neg hxq]
  · intro x hx hxc
    by_cases hxq : x.id = qid
    · exact absurd (by rw [← hxc]; exact (hq x hx hxq).1) hc'
    · rw [if_neg hxq]

theorem memOK_perm {l l' : List Member} (hp : l.Perm l') (h : MemOK l) : MemOK l' := by
  obtain ⟨hnd, hne, hfull, hhalf⟩ := h
  have hother : ∀ m, (otherWithPairId l m).Perm (otherWithPairId l' m) := by
    intro m
    exact hp.filter _
  refine ⟨?_, ?_, ?_, ?_⟩
  · exact ((hp.map Member.id).nodup_iff).mp hnd
  · intro m hm
    exact hne m (hp.mem_iff.mpr hm)
  · intro m hm hst
    exact hfull m (hp.mem_iff.mpr hm) hst
  · intro m hm hst
    obtain ⟨hnep, hcase⟩ := hhalf m (hp.mem_iff.mpr hm) hst
    refine ⟨hnep, ?_⟩
    rcases hcase with ⟨h1, h2⟩ | ⟨p, hpl, h1, h2, h3, h4, h5, h6⟩
    · left
      refine ⟨h1, ?_⟩
      have hperm := (hother m).symm
      rw [h2] at hperm
      exact hperm.eq_nil
    · right
      refine ⟨p, hp.mem_iff.mp hpl, h1, h2, h3, h4, h5, ?_⟩
      have hperm := hother m
      rw [h6] at hperm
      exact List.perm_singleton.mp hperm.symm

theorem updateById_replace_perm {l : List Member} (hnd : (l.map Member.id).Nodup)
    (pid : String) (c : Member) (hz : ∃ z ∈ l, z.id = pid) :
    (updateById pid (fun _ => c) l).Perm
      ((l.filter (fun m => !(m.id = pid : Bool))) ++ [c]) := by
  suffices hgen : ∀ (t : List Member), (t.map Member.id).Nodup → (∃ z ∈ t, z.id = pid) →
      (t.map (fun m => if m.id = pid then c else m)).Perm
        ((t.filter (fun m => !(m.id = pid : Bool))) ++ [c]) by
    rw [updateById_eq_map _ _ _ hnd]
    exact hgen l hnd hz
  intro t
  induction t with
  | nil =>
    intro _ hz
    obtain ⟨z, hzl, -⟩ := hz
    exact absurd hzl (List.not_mem_nil z)
  | cons a tl ih =>
    intro hnd hz
    rw [List.map_cons, List.nodup_cons] at hnd
    rw [List.map_cons, List.filter_cons]
    by_cases ha : a.id = pid
    · rw [if_pos ha, if_neg (by simpa using ha)]
      have htl : tl.map (fun m => if m.id = pid then c else m) = tl := by
        apply map_id_of_fix
        intro x hx
        rw [if_neg]
        intro hxp
        exact hnd.1 (by
          rw [ha, ← hxp]
          exact List.mem_map_of_mem Member.id hx)
      have hftl : tl.filter (fun m => !(m.id = pid : Bool)) = tl := by
        rw [List.filter_eq_self]
        intro x hx
        simp only [Bool.not_eq_true', decide_eq_false_iff_not]
        intro hxp
        exact hnd.1 (by
          rw [ha, ← hxp]
          exact List.mem_map_of_mem Member.id hx)
      rw [htl, hftl]
      exact (List.perm_append_singleton c tl).symm
    · rw [if_neg ha, if_pos (by simpa using ha), List.cons_append]
      refine List.Perm.cons a ?_
      apply ih hnd.2
      obtain ⟨z, hzl, hzid⟩ := hz
      rcases List.mem_cons.mp hzl with rfl | hzt
      · exact absurd hzid ha
      · exact ⟨z, hzt, hzid⟩

theorem memOK_append_own {l : List Member} (hD : MemOK l) (c : Member)
    (hine : ¬ c.id = "") (hfresh : ∀ m ∈ l, ¬ m.id = c.id)
    (hpp : c.pairId = c.id) : MemOK (l ++ [c]) := by
  cases hst : c.shareType with
  | FULL => exact memOK_append_full hD c hine hfresh hst (Or.inr hpp)
  | HALF => exact memOK_append_half_unpaired hD c hine hfresh hst hpp

theorem membersAfterUnlink_full (o : Member) (s : AppState)
    (hsh : ¬ o.shareType = ShareType.HALF) : membersAfterUnlink o s = s.members := by
  simp only [membersAfterUnlink]
  rw [if_neg hsh]

theorem membersAfterUnlink_unpaired (o : Member) (s : AppState)
    (hsh : o.shareType = ShareType.HALF)
    (hun : otherWithPairId s.members o = []) : membersAfterUnlink o s = s.members := by
  simp only [membersAfterUnlink]
  rw [if_pos hsh, find?_partner_eq, hun]
  rfl

theorem membersAfterUnlink_paired (o op : Member) (s : AppState)
    (hsh : o.shareType = ShareType.HALF)
    (hpair : otherWithPairId s.members o = [op]) :
    membersAfterUnlink o s
      = updateById op.id (fun m => { m with pairId := op.id }) s.members := by
  simp only [membersAfterUnlink]
  rw [if_pos hsh, find?_partner_eq, hpair]
  rfl

theorem relinkPair_nopartner (u : Member) (M : List Member)
    (hbr : u.pairId = "" ∨ findIndexWithId u.pairId M = none) :
    relinkPair u M = ({ u with pairId := u.id }, M) := by
  simp only [relinkPair]
  rcases hbr with hpp | hfi
  · rw [if_pos hpp]
  · by_cases hpp : u.pairId = ""
    · rw [if_pos hpp]
    · rw [if_neg hpp, hfi]

theorem relinkPair_partner (u : Member) (M : List Member) (j : Nat)
    (hpp : ¬ u.pairId = "") (hfi : findIndexWithId u.pairId M = some j) :
    relinkPair u M = ({ u with pairId := minId u.id u.pairId },
      updateById u.pairId (fun m => { m with pairId := minId u.id u.pairId }) M) := by
  simp only [relinkPair, minId]
  rw [if_neg hpp, hfi, ← modifyAt_eq_updateById _ hfi]

theorem applyUpdateMember_some (u o u' : Member) (M2 : List Member) (s : AppState)
    (hfind : s.members.find? (fun m => (m.id = u.id : Bool)) = some o)
    (hr : relinkPair u (membersAfterUnlink o s) = (u', M2))
    (j : Nat) (hj : findIndexWithId u.id M2 = some j) :
    applyUpdateMember u s =
      { s with members := updateById u.id (fun _ => u') M2,
               committees := s.committees.map (fun c =>
                 if c.id = u.committeeId then
                   { c with durationMonths :=
                       calculateDuration u.committeeId (updateById u.id (fun _ => u') M2) }
                 else c) } := by
  simp only [applyUpdateMember, hfind, hr]
  rw [hj, ← modifyAt_eq_updateById _ hj]

theorem engineInv_updateMember {s : AppState} (u : Member)
    (h : EngineInv s) (hok : UpdateMemberOK u s) : EngineInv (applyUpdateMember u s) := by
  obtain ⟨hmem, hdur⟩ := h
  cases hfind : s.members.find? (fun m => (m.id = u.id : Bool)) with
  | none =>
    simp only [applyUpdateMember, hfind]
    exact ⟨hmem, hdur⟩
  | some o =>
    have hol : o ∈ s.members := List.mem_of_find?_eq_some hfind
    have hoid : o.id = u.id := by
      have := List.find?_some hfind
      rwa [decide_eq_true_eq] at this
    obtain ⟨hoc, hnp⟩ := hok o hol hoid
    have hune : ¬ u.id = "" := by
      rw [← hoid]
      exact hmem.2.1 o hol
    have hfacts : (membersAfterUnlink o s).map Member.id = s.members.map Member.id ∧
        MemOK ((membersAfterUnlink o s).filter (fun m => !(m.id = u.id : Bool))) ∧
        (∀ c', ¬ c' = u.committeeId →
          (membersAfterUnlink o s).filter (fun m => (m.committeeId = c' : Bool))
            = s.members.filter (fun m => (m.committeeId = c' : Bool))) ∧
        (∀ x ∈ membersAfterUnlink o s, ∃ y ∈ s.members,
          x.id = y.id ∧ x.committeeId = y.committeeId) := by
      by_cases hsh : o.shareType = ShareType.HALF
      · obtain ⟨-, hcase⟩ := hmem.2.2.2 o hol hsh
        rcases hcase with ⟨-, hemp⟩ | ⟨op, hopl, hp1, hp2, hp3, hp4, hp5, hp6⟩
        · rw [membersAfterUnlink_unpaired o s hsh hemp]
          exact ⟨rfl, memOK_delete_nopartner hmem u.id o hol hoid (Or.inr hemp),
            fun c' _ => rfl, fun x hx => ⟨x, hx, rfl, rfl⟩⟩
        · rw [membersAfterUnlink_paired o op s hsh hp6]
          refine ⟨?_, ?_, ?_, ?_⟩
          · exact updateById_map_id hmem.1 op.id _ (fun x _ => rfl)
          · rw [filter_ne_updateById u.id op.id (fun m => { m with pairId := op.id })
              (fun x => rfl) hmem.1]
            exact memOK_delete_paired hmem u.id o op hol hoid hsh hp6
          · intro c' hc'
            refine filter_committee_updateById c' u.committeeId op.id hc' _ hmem.1 ?_
            intro x hx hxop
            have hxeq : x = op := hmem.id_inj x hx op hopl (by rw [hxop])
            subst hxeq
            refine ⟨by rw [hp3]; exact hoc, ?_⟩
            show x.committeeId = u.committeeId
            rw [hp3]
            exact hoc
          · exact updateById_id_com hmem.1 op.id _ (fun x => rfl) (fun x => rfl)
      · rw [membersAfterUnlink_full o s hsh]
        exact ⟨rfl, memOK_delete_nopartner hmem u.id o hol hoid (Or.inl hsh),
          fun c' _ => rfl, fun x hx => ⟨x, hx, rfl, rfl⟩⟩
    obtain ⟨hids, hDok, hfilc, htrack⟩ := hfacts
    have hnd1 : ((membersAfterUnlink o s).map Member.id).Nodup := by
      rw [hids]
      exact hmem.1
    have hz1 : ∃ z ∈ membersAfterUnlink o s, z.id = u.id :=
      exists_id_of_map_id_eq hids hol hoid
    have hfreshD : ∀ m ∈ (membersAfterUnlink o s).filter (fun m => !(m.id = u.id : Bool)),
        ¬ m.id = u.id := by
      intro m hm
      have := (List.mem_filter.mp hm).2
      simpa using this
    have hcomx : ∀ x ∈ membersAfterUnlink o s, x.id = u.id →
        x.committeeId = u.committeeId := by
      intro x hx hxid
      obtain ⟨y, hy, hyid, hyc⟩ := htrack x hx
      have hyo : y = o := hmem.id_inj y hy o hol (by
        rw [← hyid, hxid]
        exact hoid.symm)
      rw [hyc, hyo]
      exact hoc
    by_cases hppe : u.pairId = ""
    · obtain ⟨j, hj⟩ := findIndexWithId_some_of_mem hz1
      rw [applyUpdateMember_some u o _ _ s hfind
        (relinkPair_nopartner u (membersAfterUnlink o s) (Or.inl hppe)) j hj]
      refine ⟨?_, durationInv_member_op hdur ?_⟩
      · have hperm := updateById_replace_perm hnd1 u.id { u with pairId := u.id } hz1
        exact memOK_perm hperm.symm (memOK_append_own hDok _ hune hfreshD rfl)
      · intro c' hc'
        rw [filter_committee_updateById c' u.committeeId u.id hc'
          (fun _ => { u with pairId := u.id }) hnd1
          (fun x hx hxid => ⟨hcomx x hx hxid, rfl⟩)]
        exact hfilc c' hc'
    · cases hfi : findIndexWithId u.pairId (membersAfterUnlink o s) with
      | none =>
        obtain ⟨j, hj⟩ := findIndexWithId_some_of_mem hz1
        rw [applyUpdateMember_some u o _ _ s hfind
          (relinkPair_nopartner u (membersAfterUnlink o s) (Or.inr hfi)) j hj]
        refine ⟨?_, durationInv_member_op hdur ?_⟩
        · have hperm := updateById_replace_perm hnd1 u.id { u with pairId := u.id } hz1
          exact memOK_perm hperm.symm (memOK_append_own hDok _ hune hfreshD rfl)
        · intro c' hc'
          rw [filter_committee_updateById c' u.committeeId u.id hc'
            (fun _ => { u with pairId := u.id }) hnd1
            (fun x hx hxid => ⟨hcomx x hx hxid, rfl⟩)]
          exact hfilc c' hc'
      | some j =>
        obtain ⟨np, hnpM1, hnpid⟩ := exists_of_findIndexWithId_some hfi
        have hids2 : ((updateById u.pairId
              (fun m => { m with pairId := minId u.id u.pairId })
              (membersAfterUnlink o s)).map Member.id) = s.members.map Member.id := by
          rw [updateById_map_id hnd1 u.pairId
            (fun m => { m with pairId := minId u.id u.pairId }) (fun x _ => rfl), hids]
        have hnd2 : ((updateById u.pairId
              (fun m => { m with pairId := minId u.id u.pairId })
              (membersAfterUnlink o s)).map Member.id).Nodup := by
          rw [hids2]
          exact hmem.1
        have hz2 : ∃ z ∈ updateById u.pairId
              (fun m => { m with pairId := minId u.id u.pairId })
              (membersAfterUnlink o s), z.id = u.id :=
          exists_id_of_map_id_eq hids2 hol hoid
        have htrack2 : ∀ x ∈ updateById u.pairId
              (fun m => { m with pairId := minId u.id u.pairId })
              (membersAfterUnlink o s),
            ∃ y ∈ s.members, x.id = y.id ∧ x.committeeId = y.committeeId := by
          intro x hx
          obtain ⟨y1, hy1, h1, h2⟩ :=
            updateById_id_com hnd1 u.pairId
              (fun m => { m with pairId := minId u.id u.pairId })
              (fun x => rfl) (fun x => rfl) x hx
          obtain ⟨y, hy, h3, h4⟩ := htrack y1 hy1
          exact ⟨y, hy, h1.trans h3, h2.trans h4⟩
        have hcomx2 : ∀ x ∈ updateById u.pairId
              (fun m => { m with pairId := minId u.id u.pairId })
              (membersAfterUnlink o s),
            x.id = u.id → x.committeeId = u.committeeId := by
          intro x hx hxid
          obtain ⟨y, hy, hyid, hyc⟩ := htrack2 x hx
          have hyo : y = o := hmem.id_inj y hy o hol (by
            rw [← hyid, hxid]
            exact hoid.symm)
          rw [hyc, hyo]
          exact hoc
        have hq1 : ∀ x ∈ membersAfterUnlink o s, x.id = u.pairId →
            x.committeeId = u.committeeId := by
          intro x hx hxid
          rcases hnp x hx hxid with hxu | ⟨-, -, hxc, -, -⟩
          · exact hcomx x hx hxu
          · exact hxc
        obtain ⟨j2, hj2⟩ := findIndexWithId_some_of_mem hz2
        rw [applyUpdateMember_some u o _ _ s hfind
          (relinkPair_partner u (membersAfterUnlink o s) j hppe hfi) j2 hj2]
        refine ⟨?_, durationInv_member_op hdur ?_⟩
        · have hperm := updateById_replace_perm hnd2 u.id
            { u with pairId := minId u.id u.pairId } hz2
          rw [filter_ne_updateById u.id u.pairId
            (fun m => { m with pairId := minId u.id u.pairId })
            (fun x => rfl) hnd1] at hperm
          by_cases hnpu : np.id = u.id
          · have hupid : u.pairId = u.id := by
              rw [← hnpid, hnpu]
            rw [updateById_of_forall_ne u.pairId _ (fun m hm hc =>
              hfreshD m hm (hc.trans hupid))] at hperm
            have hpp' : ({ u with pairId := minId u.id u.pairId } : Member).pairId
                = ({ u with pairId := minId u.id u.pairId } : Member).id := by
              show minId u.id u.pairId = u.id
              rw [hupid, minId_self]
            exact memOK_perm hperm.symm (memOK_append_own hDok _ hune hfreshD hpp')
          · obtain ⟨hush, hnph, hnpc, hnpunp, hq2⟩ :=
              (hnp np hnpM1 hnpid).resolve_left hnpu
            have hnpD : np ∈ (membersAfterUnlink o s).filter
                (fun m => !(m.id = u.id : Bool)) :=
              List.mem_filter.mpr ⟨hnpM1, by simpa using hnpu⟩
            have hqD : ∀ q ∈ (membersAfterUnlink o s).filter
                (fun m => !(m.id = u.id : Bool)), q.pairId = np.id → q.id = np.id := by
              intro q hq hqp
              rcases hq2 q (List.mem_filter.mp hq).1 hqp with hcase | hcase
              · exact hcase
              · exact absurd hcase (hfreshD q hq)
            exact memOK_perm hperm.symm
              (memOK_addMember_pair hDok u.pairId { u with pairId := minId u.id u.pairId }
                np hune hfreshD hush hnpD hnpid hnph hnpc hnpunp hqD rfl)
        · intro c' hc'
          rw [filter_committee_updateById c' u.committeeId u.id hc'
            (fun _ => { u with pairId := minId u.id u.pairId }) hnd2
            (fun x hx hxid => ⟨hcomx2 x hx hxid, rfl⟩),
            filter_committee_updateById c' u.committeeId u.pairId hc'
            (fun m => { m with pairId := minId u.id u.pairId }) hnd1
            (fun x hx hxid => ⟨hq1 x hx hxid, hq1 x hx hxid⟩)]
          exact hfilc c' hc'

/-! ## The invariant holds in every protocol-respecting reachable state -/

theorem engineInv_gstep {s t : AppState} (hst : GStep s t) (h : EngineInv s) :
    EngineInv t := by
  cases hst with
  | addCommittee i c s hok => exact engineInv_addCommittee i c h hok
  | updateCommittee uc s => exact engineInv_updateCommittee uc h
  | deleteCommittee i s => exact engineInv_deleteCommittee i h
  | addMember i inp s hok => exact engineInv_addMember i inp h hok
  | updateMember um s hok => exact engineInv_updateMember um h hok
  | deleteMember i s => exact engineInv_deleteMember i h
  | addPayment i inp s => exact engineInv_addPayment i inp h
  | updatePayment inp pid s => exact engineInv_updatePayment inp pid h
  | deletePayment i s => exact engineInv_deletePayment i h
  | addDraw i inp s => exact engineInv_addDraw i inp h
  | updateDraw inp did s => exact engineInv_updateDraw inp did h
  | deleteDraw i s => exact engineInv_deleteDraw i h

theorem engineInv_greachable {s : AppState} (h : GReachable s) : EngineInv s := by
  induction h with
  | empty => exact engineInv_empty
  | step hr hst ih => exact engineInv_gstep hst ih

/-! ## C2 and C4: the pairing and duration invariants, raw versus guarded -/

instance (i : String) (s : AppState) : Decidable (FreshId i s) := by
  unfold FreshId
  infer_instance

instance (i : String) (s : AppState) : Decidable (AddCommitteeOK i s) := by
  unfold AddCommitteeOK
  infer_instance

instance (i : String) (inp : MemberInput) (s : AppState) :
    Decidable (AddMemberOK i inp s) := by
  unfold AddMemberOK
  infer_instance

instance (u : Member) (s : AppState) : Decidable (UpdateMemberOK u s) := by
  unfold UpdateMemberOK
  infer_instance

instance (l : List Member) : Decidable (PairingSym l) := by
  unfold PairingSym
  infer_instance

instance (s : AppState) : Decidable (DurationInv s) := by
  unfold DurationInv
  infer_instance

/-- The state reached by adding a FULL member `a` and then a HALF member
whose partner reference names `a`: the code pairs with it without
checking its share type. -/
def badPairState : AppState :=
  applyAddMember "b" ⟨"c1", "B", "", ShareType.HALF, "a"⟩
    (applyAddMember "a" ⟨"c1", "A", "", ShareType.FULL, ""⟩ emptyState)

theorem badPairState_reachable : Reachable badPairState :=
  Reachable.step
    (Reachable.step Reachable.empty
      (Step.addMember "a" ⟨"c1", "A", "", ShareType.FULL, ""⟩ emptyState (by decide)))
    (Step.addMember "b" ⟨"c1", "B", "", ShareType.HALF, "a"⟩ _ (by decide))

theorem minId_ba : minId "b" "a" = "a" := by
  have hab : ("a" : String) < "b" := String.lt_iff_toList_lt.mpr (by decide)
  unfold minId
  rw [if_neg (asymm hab)]

theorem badPairState_members :
    badPairState.members
      = [⟨"a", "c1", "A", "", ShareType.FULL, "a"⟩,
         ⟨"b", "c1", "B", "", ShareType.HALF, "a"⟩] := by
  show (applyAddMember "b" ⟨"c1", "B", "", ShareType.HALF, "a"⟩
      (applyAddMember "a" ⟨"c1", "A", "", ShareType.FULL, ""⟩ emptyState)).members = _
  rw [applyAddMember_half_partner "b" ⟨"c1", "B", "", ShareType.HALF, "a"⟩
    (applyAddMember "a" ⟨"c1", "A", "", ShareType.FULL, ""⟩ emptyState) 0 rfl
    (by decide) rfl]
  simp only [minId_ba]
  rfl

theorem badPairState_not_sym : ¬ PairingSym badPairState.members := by
  rw [badPairState_members]
  decide

/-- The state reached by adding a committee and a FULL member, then
calling `updateMember` with the member's `committeeId` changed: the code
recomputes only the new committee's duration, leaving the old one
stale. -/
def staleDurationState : AppState :=
  applyUpdateMember ⟨"m1", "c2", "A", "", ShareType.FULL, ""⟩
    (applyAddMember "m1" ⟨"c1", "A", "", ShareType.FULL, ""⟩
      (applyAddCommittee "c1" ⟨"K", 100, "2024-01-01", true⟩ emptyState))

theorem staleDurationState_reachable : Reachable staleDurationState :=
  Reachable.step
    (Reachable.step
      (Reachable.step Reachable.empty
        (Step.addCommittee "c1" ⟨"K", 100, "2024-01-01", true⟩ emptyState (by decide)))
      (Step.addMember "m1" ⟨"c1", "A", "", ShareType.FULL, ""⟩ _ (by decide)))
    (Step.updateMember ⟨"m1", "c2", "A", "", ShareType.FULL, ""⟩ _)

theorem staleDurationState_stale : ¬ DurationInv staleDurationState := by decide

/-- C2 counterexample: with raw caller input the pairing invariant is
not preserved — `addMember` accepts a partner reference to a FULL
member, producing a reachable state with a HALF member whose pairId is
neither its own id nor shared with any other HALF member. -/
theorem pairingSym_counterexample :
    Reachable badPairState ∧ ¬ PairingSym badPairState.members :=
  ⟨badPairState_reachable, badPairState_not_sym⟩

/-- C2 (amended): pairing symmetry holds in every state reachable
through operations whose caller input obeys the pairing protocol's
preconditions — partner references resolve to unpaired HALF members of
the same committee and generated ids are fresh. -/
theorem pairing_symmetry_greachable (s : AppState) (h : GReachable s) :
    PairingSym s.members :=
  (engineInv_greachable h).1.pairingSym

theorem pairing_symmetry_greachable_witness :
    PairingSym (applyAddMember "b" ⟨"c1", "B", "", ShareType.HALF, "a"⟩
      (applyAddMember "a" ⟨"c1", "A", "", ShareType.HALF, ""⟩
        (applyAddCommittee "c1" ⟨"K", 100, "2024-01-01", true⟩ emptyState))).members :=
  pairing_symmetry_greachable _
    (GReachable.step
      (GReachable.step
        (GReachable.step GReachable.empty
          (GStep.addCommittee "c1" ⟨"K", 100, "2024-01-01", true⟩ emptyState (by decide)))
        (GStep.addMember "a" ⟨"c1", "A", "", ShareType.HALF, ""⟩ _ (by decide)))
      (GStep.addMember "b" ⟨"c1", "B", "", ShareType.HALF, "a"⟩ _ (by decide)))

/-- C4 counterexample: `updateMember` recomputes the duration only for
the updated member's (new) committee, so a raw `updateMember` call that
changes the member's `committeeId` leaves the old committee's stored
`durationMonths` stale in a reachable state. -/
theorem durationInv_counterexample :
    Reachable staleDurationState ∧ ¬ DurationInv staleDurationState :=
  ⟨staleDurationState_reachable, staleDurationState_stale⟩

/-- C4 (amended): every committee's stored `durationMonths` equals
`calculateDuration` on the current member list in every state reachable
through protocol-respecting operations — in particular ones where
`updateMember` never changes a member's committee. -/
theorem duration_invariant_greachable (s : AppState) (h : GReachable s) :
    DurationInv s :=
  (engineInv_greachable h).2

theorem duration_invariant_greachable_witness :
    DurationInv (applyDeleteMember "m1"
      (applyAddMember "m2" ⟨"c1", "B", "", ShareType.HALF, ""⟩
        (applyAddMember "m1" ⟨"c1", "A", "", ShareType.FULL, ""⟩
          (applyAddCommittee "c1" ⟨"K", 100, "2024-01-01", true⟩ emptyState)))) :=
  duration_invariant_greachable _
    (GReachable.step
      (GReachable.step
        (GReachable.step
          (GReachable.step GReachable.empty
            (GStep.addCommittee "c1" ⟨"K", 100, "2024-01-01", true⟩ emptyState (by decide)))
          (GStep.addMember "m1" ⟨"c1", "A", "", ShareType.FULL, ""⟩ _ (by decide)))
        (GStep.addMember "m2" ⟨"c1", "B", "", ShareType.HALF, ""⟩ _ (by decide)))
      (GStep.deleteMember "m1" _))

end Kameeti
